import Mathlib

/-!
Verification development for a JPEG-style lossy image codec.

The codec is shallowly embedded: pixel buffers are `List ℕ` of byte values,
planes and tiles are functions `ℕ → ℕ → α` together with explicit dimensions,
real (double) arithmetic of the source is modelled over `ℚ`, machine integers
are modelled as `ℤ`/`ℕ` with explicit reductions mod `2^w` where the source
narrows to a fixed-width dtype, and fallible operations return `Except String`.
-/

/-- Clamp an integer to the byte range `[0, 255]`; the source writes
`max(0, min(255, v))`. -/
def clampByte (v : ℤ) : ℤ := max 0 (min 255 v)

/-- Kernel-computable floor of a rational (the denominator is positive, so
Euclidean division of the numerator by it is the floor). -/
def ratFloor (x : ℚ) : ℤ := x.num / (x.den : ℤ)

/-- Round a rational to the nearest integer with ties to even.  This is the
behaviour of both Python `round` and `np.round` on doubles. -/
def roundHalfEven (x : ℚ) : ℤ :=
  if x - ratFloor x < 1/2 then ratFloor x
  else if (1:ℚ)/2 < x - ratFloor x then ratFloor x + 1
  else if ratFloor x % 2 = 0 then ratFloor x else ratFloor x + 1

/-- Truncation toward zero, the behaviour of Python `int(...)` on a float. -/
def truncToZero (x : ℚ) : ℤ := if 0 ≤ x then ratFloor x else -(ratFloor (-x))

namespace RGBToYCbCr

/-- Forward colour transform of one RGB triplet, exactly as the loop body of
`RGBToYCbCr.convert` computes it: BT.601 formula, Python `round`, clamp. -/
def yccPixel (r g b : ℕ) : ℕ × ℕ × ℕ :=
  let y := clampByte (roundHalfEven ((299/1000) * (r:ℚ) + (587/1000) * (g:ℚ) + (114/1000) * (b:ℚ)))
  let cb := clampByte (roundHalfEven (-(1687/10000) * (r:ℚ) - (3313/10000) * (g:ℚ) + (1/2) * (b:ℚ) + 128))
  let cr := clampByte (roundHalfEven ((1/2) * (r:ℚ) - (4187/10000) * (g:ℚ) - (813/10000) * (b:ℚ) + 128))
  (y.toNat, cb.toNat, cr.toNat)

/-- Inverse colour transform of one YCbCr triplet, exactly as the loop body of
`RGBToYCbCr.inverse` computes it: BT.601 inverse formula, Python `int`
(truncation toward zero), clamp. -/
def rgbPixel (y cb cr : ℕ) : ℕ × ℕ × ℕ :=
  let r := clampByte (truncToZero ((y:ℚ) + (1402/1000) * ((cr:ℚ) - 128)))
  let g := clampByte (truncToZero ((y:ℚ) - (34414/100000) * ((cb:ℚ) - 128) - (71414/100000) * ((cr:ℚ) - 128)))
  let b := clampByte (truncToZero ((y:ℚ) + (1772/1000) * ((cb:ℚ) - 128)))
  (r.toNat, g.toNat, b.toNat)

/-- The per-triplet traversal of the interleaved buffer shared by both
directions of `RGBToYCbCr`. -/
def mapTriples (f : ℕ → ℕ → ℕ → ℕ × ℕ × ℕ) : List ℕ → List ℕ
  | a :: b :: c :: rest =>
      let t := f a b c
      t.1 :: t.2.1 :: t.2.2 :: mapTriples f rest
  | _ => []

/-- Embedding of `RGBToYCbCr.convert`: rejects buffers whose length is not a
multiple of 3, otherwise transforms each interleaved RGB triplet. -/
def convert (data : List ℕ) : Except String (List ℕ) :=
  if data.length % 3 ≠ 0 then .error "rgb length not a multiple of 3"
  else .ok (mapTriples yccPixel data)

/-- Embedding of `RGBToYCbCr.inverse`: rejects buffers whose length is not a
multiple of 3, otherwise transforms each interleaved YCbCr triplet. -/
def inverse (data : List ℕ) : Except String (List ℕ) :=
  if data.length % 3 ≠ 0 then .error "ycbcr length not a multiple of 3"
  else .ok (mapTriples rgbPixel data)

end RGBToYCbCr

namespace DCDifferentialCodec

/-- The difference loop of `DCDifferentialCodec.encode`: each output element is
the current DC value minus the previous one. -/
def encodeDiffs (prev : ℤ) : List ℤ → List ℤ
  | [] => []
  | c :: rest => (c - prev) :: encodeDiffs c rest

/-- Embedding of `DCDifferentialCodec.encode`: fails on an empty sequence; the
first output equals the first input, the rest are successive differences. -/
def encode : List ℤ → Except String (List ℤ)
  | [] => .error "dc sequence must be non-empty"
  | x :: xs => .ok (x :: encodeDiffs x xs)

/-- The running-sum loop of `DCDifferentialCodec.decode`. -/
def decodeSums (prev : ℤ) : List ℤ → List ℤ
  | [] => []
  | d :: rest => (prev + d) :: decodeSums (prev + d) rest

/-- Embedding of `DCDifferentialCodec.decode`: fails on an empty sequence; the
first output equals the first diff, the rest are running sums. -/
def decode : List ℤ → Except String (List ℤ)
  | [] => .error "diff sequence must be non-empty"
  | d :: ds => .ok (d :: decodeSums d ds)

end DCDifferentialCodec

namespace ZigZag

/-- The even anti-diagonal loop of `ZigZag._generate_indices`: starting at
`(i, j)` it appends cells walking up-right (`i` decreasing, `j` increasing)
while the row index is nonnegative and the column index is below `n`. -/
def evenRun (n : ℕ) : ℕ → ℕ → List (ℕ × ℕ)
  | 0, j => if j < n then [(0, j)] else []
  | i + 1, j => if j < n then (i + 1, j) :: evenRun n i (j + 1) else []

/-- The odd anti-diagonal loop of `ZigZag._generate_indices`: starting at
`(i, j)` it appends cells walking down-left (`i` increasing, `j` decreasing)
while the column index is nonnegative and the row index is below `n`. -/
def oddRun (n : ℕ) : ℕ → ℕ → List (ℕ × ℕ)
  | i, 0 => if i < n then [(i, 0)] else []
  | i, j + 1 => if i < n then (i, j + 1) :: oddRun n (i + 1) j else []

/-- Embedding of `ZigZag._generate_indices`: for each anti-diagonal
`s = 0 .. 2n-2`, traverse it bottom-to-top when `s` is even and top-to-bottom
when `s` is odd.  The order depends only on `n`. -/
def genIndices (n : ℕ) : List (ℕ × ℕ) :=
  (List.range (2 * n - 1)).flatMap fun s =>
    if s % 2 = 0 then evenRun n (min s (n - 1)) (s - min s (n - 1))
    else oddRun n (s - min s (n - 1)) (min s (n - 1))

/-- Embedding of `ZigZag.encode`: read the tile cells in the precomputed
order.  (The source's shape check compares the array's shape with
`(n, n)`; a function-represented `n × n` tile always has that shape.) -/
def encode (n : ℕ) (t : ℕ → ℕ → ℤ) : List ℤ :=
  (genIndices n).map fun p => t p.1 p.2

/-- The write-back loop of `ZigZag.decode`: `block[i, j] = arr[idx]` for each
enumerated index pair. -/
def writeCells (data : List ℤ) : List (ℕ × ℕ) → ℕ → (ℕ → ℕ → ℤ) → (ℕ → ℕ → ℤ)
  | [], _, b => b
  | p :: rest, idx, b =>
      writeCells data rest (idx + 1)
        (fun i j => if i = p.1 ∧ j = p.2 then data.getD idx 0 else b i j)

/-- Embedding of `ZigZag.decode`: reject sequences whose length is not `n²`,
otherwise fill a zero tile by writing each value to its zigzag coordinate. -/
def decode (n : ℕ) (data : List ℤ) : Except String (ℕ → ℕ → ℤ) :=
  if data.length ≠ n * n then .error "zigzag sequence length mismatch"
  else .ok (writeCells data (genIndices n) 0 fun _ _ => 0)

end ZigZag

/-- The concrete 4×4 tile of the specification's test vector, as a function. -/
def zzTile4 : ℕ → ℕ → ℤ := fun i j =>
  (([[1, 2, 6, 7], [3, 5, 8, 13], [4, 9, 12, 14], [10, 11, 15, 16]] :
    List (List ℤ)).getD i []).getD j 0

namespace BlockSplitter

/-- Reading a padded plane: inside the original `width × height` region the
byte buffer is consulted, outside it (the bottom/right padding added by
`np.pad`) the configured fill value is returned. -/
def paddedAt (fill : ℕ) (data : List ℕ) (w h : ℕ) (y x : ℕ) : ℕ :=
  if y < h ∧ x < w then data.getD (y * w + x) 0 else fill

/-- One `bs × bs` tile sliced from the padded plane: tile `bIdx` covers grid
row `bIdx / nbw` and grid column `bIdx % nbw`, serialized row-major. -/
def tileAt (bs fill : ℕ) (data : List ℕ) (w h nbw bIdx : ℕ) : List ℕ :=
  (List.range (bs * bs)).map fun tIdx =>
    paddedAt fill data w h ((bIdx / nbw) * bs + tIdx / bs) ((bIdx % nbw) * bs + tIdx % bs)

/-- Embedding of `BlockSplitter.convert`: check the buffer length, pad to the
next multiples of the block size, slice `bs × bs` tiles in row-major tile
order, each tile serialized row-major. -/
def convert (bs fill : ℕ) (data : List ℕ) (w h : ℕ) : Except String (List (List ℕ)) :=
  if data.length ≠ w * h then .error "data length does not equal width*height"
  else
    let nbw := (w + bs - 1) / bs
    let nbh := (h + bs - 1) / bs
    .ok ((List.range (nbh * nbw)).map (tileAt bs fill data w h nbw))

/-- The region of the full grid covered by the tile at grid position
`(row, col)`. -/
def inTile (bs row col y x : ℕ) : Prop :=
  row * bs ≤ y ∧ y < row * bs + bs ∧ col * bs ≤ x ∧ x < col * bs + bs

instance (bs row col y x : ℕ) : Decidable (inTile bs row col y x) := by
  unfold inTile; infer_instance

/-- Writing one tile into the full padded grid at grid position `(row, col)`,
as `arr[y0:y0+bs, x0:x0+bs] = block_arr` does. -/
def writeBlock (bs row col : ℕ) (blk : List ℕ) (b : ℕ → ℕ → ℕ) : ℕ → ℕ → ℕ :=
  fun y x =>
    if inTile bs row col y x then blk.getD ((y - row * bs) * bs + (x - col * bs)) 0
    else b y x

/-- The write loop of `BlockSplitter.inverse`: tile `idx` goes to grid row
`idx / blocks_per_row` and grid column `idx % blocks_per_row`. -/
def writeBlocks (bs nbw : ℕ) : List (List ℕ) → ℕ → (ℕ → ℕ → ℕ) → (ℕ → ℕ → ℕ)
  | [], _, b => b
  | blk :: rest, idx, b =>
      writeBlocks bs nbw rest (idx + 1) (writeBlock bs (idx / nbw) (idx % nbw) blk b)

/-- Embedding of `BlockSplitter.inverse`: check the tile count, check each
tile reshapes to `bs × bs`, write every tile into a fill-valued grid, then
crop to `height × width` row-major. -/
def inverse (bs fill : ℕ) (blocks : List (List ℕ)) (w h : ℕ) : Except String (List ℕ) :=
  let nbw := (w + bs - 1) / bs
  let nbh := (h + bs - 1) / bs
  if blocks.length ≠ nbw * nbh then .error "unexpected number of blocks"
  else if blocks.any (fun blk => blk.length != bs * bs) then .error "tile does not reshape to bs*bs"
  else
    let full := writeBlocks bs nbw blocks 0 fun _ _ => fill
    .ok ((List.range (h * w)).map fun k => full (k / w) (k % w))

end BlockSplitter

namespace Quantizer

/-- The ITU-T81 base luminance quantization table (class constant
`_BASE_LUMINANCE`). -/
def baseLuminance : List (List ℕ) :=
  [[16, 11, 10, 16, 24, 40, 51, 61],
   [12, 12, 14, 19, 26, 58, 60, 55],
   [14, 13, 16, 24, 40, 57, 69, 56],
   [14, 17, 22, 29, 51, 87, 80, 62],
   [18, 22, 37, 56, 68, 109, 103, 77],
   [24, 35, 55, 64, 81, 104, 113, 92],
   [49, 64, 78, 87, 103, 121, 120, 101],
   [72, 92, 95, 98, 112, 100, 103, 99]]

/-- The ITU-T81 base chrominance quantization table (class constant
`_BASE_CHROMINANCE`). -/
def baseChrominance : List (List ℕ) :=
  [[17, 18, 24, 47, 99, 99, 99, 99],
   [18, 21, 26, 66, 99, 99, 99, 99],
   [24, 26, 56, 99, 99, 99, 99, 99],
   [47, 66, 99, 99, 99, 99, 99, 99],
   [99, 99, 99, 99, 99, 99, 99, 99],
   [99, 99, 99, 99, 99, 99, 99, 99],
   [99, 99, 99, 99, 99, 99, 99, 99],
   [99, 99, 99, 99, 99, 99, 99, 99]]

/-- Embedding of `Quantizer._scale_factor`: clamp quality into `[1, 100]`,
then `5000 // q` below 50 and `200 - 2q` otherwise. -/
def scale_factor (quality : ℕ) : ℕ :=
  let q := max 1 (min quality 100)
  if q < 50 then 5000 / q else 200 - 2 * q

/-- The inner `scale_table` of `Quantizer.get_quant_tables`:
`clip((base * scale + 50) // 100, 1, 255)` entry-wise. -/
def scale_table (scale : ℕ) (base : List (List ℕ)) : List (List ℕ) :=
  base.map fun row => row.map fun v => min 255 (max 1 ((v * scale + 50) / 100))

/-- Embedding of `Quantizer.get_quant_tables`: the scaled luminance and
chrominance tables for a quality level. -/
def get_quant_tables (quality : ℕ) : List (List ℕ) × List (List ℕ) :=
  (scale_table (scale_factor quality) baseLuminance,
   scale_table (scale_factor quality) baseChrominance)

/-- Two's-complement 32-bit narrowing, the `astype(np.int32)` applied by
`Quantizer.quantize` to its rounded quotients. -/
def toInt32 (v : ℤ) : ℤ :=
  if v % 4294967296 < 2147483648 then v % 4294967296 else v % 4294967296 - 4294967296

/-- Embedding of one element of `Quantizer.quantize`:
`np.round(coeffs / table).astype(np.int32)` (half-even, as `np.round` rounds,
then narrowed to int32). -/
def quantize (c t : ℚ) : ℤ := toInt32 (roundHalfEven (c / t))

/-- Embedding of one element of `Quantizer.dequantize`: `qcoeffs * table`. -/
def dequantize (q : ℤ) (t : ℚ) : ℚ := (q : ℚ) * t

end Quantizer

/-- The specification's formula for one scaled quantization table entry:
clamp quality to `[1,100]`; `scale = 5000/quality` (integer division) below
50, else `200 − 2·quality`; entry `= clamp(floor((base·scale + 50)/100), 1,
255)`. -/
def specQuantEntry (quality base : ℕ) : ℕ :=
  let q := max 1 (min quality 100)
  let scale := if q < 50 then 5000 / q else 200 - 2 * q
  min 255 (max 1 ((base * scale + 50) / 100))

/-- Two's-complement 16-bit narrowing (numpy `astype(np.int16)` and
assignment into an int16 array). -/
def toInt16 (v : ℤ) : ℤ :=
  if v % 65536 < 32768 then v % 65536 else v % 65536 - 65536

/-- The two little-endian bytes of one int16 value (numpy `tobytes` on a
little-endian host). -/
def int16Bytes (v : ℤ) : List ℕ := [(v % 65536).toNat % 256, (v % 65536).toNat / 256]

/-- Serializing a list of integers as consecutive int16 values
(`np.array(..., dtype=np.int16).tobytes()`). -/
def int16ListBytes (l : List ℤ) : List ℕ := l.flatMap int16Bytes

/-- Reading one int16 from two little-endian bytes (`np.frombuffer`). -/
def int16OfBytes (lo hi : ℕ) : ℤ :=
  if lo % 256 + 256 * (hi % 256) < 32768 then (lo % 256 + 256 * (hi % 256) : ℕ)
  else (lo % 256 + 256 * (hi % 256) : ℕ) - 65536

/-- Reading a whole byte buffer as int16 values. -/
def int16sOfBytes : List ℕ → List ℤ
  | lo :: hi :: rest => int16OfBytes lo hi :: int16sOfBytes rest
  | _ => []

/-- Finite sum over `0 .. n-1`, the summation of the matrix products. -/
def sumRange (n : ℕ) (f : ℕ → ℚ) : ℚ := ((List.range n).map f).sum

/-- Row-major serialization of an `h × w` single-channel plane
(`ndarray.tobytes()`). -/
def planeBytes (p : ℕ → ℕ → ℕ) (h w : ℕ) : List ℕ :=
  (List.range (h * w)).map fun k => p (k / w) (k % w)

namespace DCT2D

/-- Embedding of `DCT2D.forward`: `C = D · f · Dᵀ` for block size `N`.  The
source builds the basis matrix `D` once per block size from cosines; the
transform itself only multiplies by it, so it is embedded here for an
arbitrary rational basis matrix. -/
def forward (N : ℕ) (D : ℕ → ℕ → ℚ) (f : ℕ → ℕ → ℚ) : ℕ → ℕ → ℚ :=
  fun k l => sumRange N fun a => sumRange N fun b => D k a * f a b * D l b

/-- Embedding of `DCT2D.inverse`: `f = Dᵀ · C · D`. -/
def inverse (N : ℕ) (D : ℕ → ℕ → ℚ) (C : ℕ → ℕ → ℚ) : ℕ → ℕ → ℚ :=
  fun a b => sumRange N fun k => sumRange N fun l => D k a * C k l * D l b

end DCT2D

namespace Downsampler

/-- Embedding of the value grid of `Downsampler.downsample`: pad the plane on
the bottom/right with the fill value to multiples of the factors, then take
the arithmetic mean of each `factor_y × factor_x` cell. -/
def downAt (sy sx : ℕ) (fill : ℚ) (p : ℕ → ℕ → ℚ) (h w : ℕ) (a b : ℕ) : ℚ :=
  (sumRange sy fun dy => sumRange sx fun dx =>
    if a * sy + dy < h ∧ b * sx + dx < w then p (a * sy + dy) (b * sx + dx) else fill) /
    ((sy : ℚ) * (sx : ℚ))

end Downsampler

namespace JPEGCompressor

/-- `struct.pack(">H", v)`: two big-endian bytes; fails when the value does
not fit in 16 bits. -/
def packU16 (v : ℕ) : Except String (List ℕ) :=
  if v < 65536 then .ok [v / 256, v % 256] else .error "argument out of range for H"

/-- `struct.pack(">B", v)` byte: fails when the value does not fit in 8
bits. -/
def packU8 (v : ℕ) : Except String (List ℕ) :=
  if v < 256 then .ok [v] else .error "argument out of range for B"

/-- The header assembly of `compress` step 10: `pack(">HHBB", w, h,
block_size, quality)` followed by `pack(">HH", w_cb, h_cb)`. -/
def packHeader (w h bs q dsw dsh : ℕ) : Except String (List ℕ) := do
  let b1 ← packU16 w
  let b2 ← packU16 h
  let b3 ← packU8 bs
  let b4 ← packU8 q
  let b5 ← packU16 dsw
  let b6 ← packU16 dsh
  .ok (b1 ++ b2 ++ b3 ++ b4 ++ b5 ++ b6)

/-- Big-endian 16-bit read at byte offset `off`. -/
def readU16 (b : List ℕ) (off : ℕ) : ℕ := b.getD off 0 * 256 + b.getD (off + 1) 0

/-- The header parsing of `decompress` step 1: the first 10 bytes are the
header; `>HHBB` is unpacked from its first 6 bytes (failing when fewer than 6
bytes exist) and `>HH` from its last 4 bytes. -/
def parseHeader (data : List ℕ) :
    Except String (ℕ × ℕ × ℕ × ℕ × ℕ × ℕ × List ℕ) :=
  let header := data.take 10
  let payload := data.drop 10
  if data.length < 6 then .error "unpack requires a buffer of 6 bytes"
  else
    let w := readU16 header 0
    let h := readU16 header 2
    let bs := header.getD 4 0
    let q := header.getD 5 0
    let tail4 := header.drop (header.length - 4)
    let dsw := readU16 tail4 0
    let dsh := readU16 tail4 2
    .ok (w, h, bs, q, dsw, dsh, payload)

/-- The codec configuration held by a constructed `JPEGCompressor`
instance. -/
structure Config where
  quality : ℕ
  block_size : ℕ
  sub_y : ℕ
  sub_x : ℕ
  fill_value : ℕ

/-- Embedding of `JPEGCompressor.__init__`: the explicit quality range check,
then the checks performed by the helper constructors in initialization order
(`DCT2D` rejects a non-positive block size, `BlockSplitter` rejects a
non-positive block size and an out-of-range fill value, `Downsampler` rejects
non-positive subsample factors). -/
def init (quality block_size sub_y sub_x fill_value : ℤ) : Except String Config :=
  if ¬(0 ≤ quality ∧ quality ≤ 100) then .error "quality out of range"
  else if block_size ≤ 0 then .error "block_size must be positive"
  else if ¬(0 ≤ fill_value ∧ fill_value ≤ 255) then .error "fill_value out of range"
  else if sub_y ≤ 0 ∨ sub_x ≤ 0 then .error "subsample factors must be positive"
  else .ok ⟨quality.toNat, block_size.toNat, sub_y.toNat, sub_x.toNat, fill_value.toNat⟩

/-- The fixed 10-byte header layout: image width and height as big-endian
16-bit at offsets 0 and 2, block size and quality as bytes at offsets 4 and 5,
subsampled chroma width and height as big-endian 16-bit at offsets 6 and 8. -/
def headerList (w h bs q dsw dsh : ℕ) : List ℕ :=
  [w / 256, w % 256, h / 256, h % 256, bs, q, dsw / 256, dsw % 256, dsh / 256, dsh % 256]

/-- The Y plane extracted from the interleaved YCbCr byte buffer. -/
def yPlane (ycc : List ℕ) (w : ℕ) : ℕ → ℕ → ℕ := fun y x => ycc.getD (3 * (y * w + x)) 0

/-- A chroma plane (`c = 1` for Cb, `c = 2` for Cr) extracted from the
interleaved YCbCr byte buffer, as rationals for the downsampling mean. -/
def chromaPlane (ycc : List ℕ) (w c : ℕ) : ℕ → ℕ → ℚ :=
  fun y x => (ycc.getD (3 * (y * w + x) + c) 0 : ℚ)

/-- A downsampled chroma plane rounded back to uint8
(`np.round(...).astype(np.uint8)`). -/
def chromaDsPlane (cfg : Config) (ycc : List ℕ) (w h c : ℕ) : ℕ → ℕ → ℕ :=
  fun a b => (roundHalfEven (Downsampler.downAt cfg.sub_y cfg.sub_x
    (cfg.fill_value : ℚ) (chromaPlane ycc w c) h w a b)).toNat % 256

/-- Compress step 5 for one serialized tile: reinterpret the bytes as a
`bs × bs` matrix, level-shift by −128, DCT, quantize against the table
(including the int32 narrowing of the quantized values), zigzag. -/
def processBlock (bs : ℕ) (D : ℕ → ℕ → ℚ) (table : List (List ℕ)) (blk : List ℕ) :
    List ℤ :=
  let mat : ℕ → ℕ → ℚ := fun r c => (blk.getD (r * bs + c) 0 : ℚ) - 128
  let C := DCT2D.forward bs D mat
  let Q : ℕ → ℕ → ℤ := fun i j =>
    Quantizer.quantize (C i j) (((table.getD i []).getD j 0 : ℕ) : ℚ)
  ZigZag.encode bs Q

/-- Embedding of `JPEGCompressor.compress` on a decoded `w × h` RGB byte
buffer.  The pipeline is parameterized by the DCT basis matrix `D` for the
configured block size, and by the RLE and Huffman compressor functions — the
collaborator classes are outside the embedded core and are used by the
orchestrator only through their byte-stream interface. -/
def compress (D : ℕ → ℕ → ℚ) (rleC huffC : List ℕ → List ℕ) (cfg : Config)
    (w h : ℕ) (rgb : List ℕ) : Except String (List ℕ) := do
  let bs := cfg.block_size
  let ycc ← RGBToYCbCr.convert rgb
  let nchh := (h + cfg.sub_y - 1) / cfg.sub_y
  let nchw := (w + cfg.sub_x - 1) / cfg.sub_x
  let blocks_Y ← BlockSplitter.convert bs cfg.fill_value (planeBytes (yPlane ycc w) h w) w h
  let blocks_Cb ← BlockSplitter.convert bs cfg.fill_value
    (planeBytes (chromaDsPlane cfg ycc w h 1) nchh nchw) nchw nchh
  let blocks_Cr ← BlockSplitter.convert bs cfg.fill_value
    (planeBytes (chromaDsPlane cfg ycc w h 2) nchh nchw) nchw nchh
  -- the quantizer's same-shape check couples the 8×8 tables to the block
  -- size as soon as one tile is processed
  if bs ≠ 8 ∧ 0 < blocks_Y.length + blocks_Cb.length + blocks_Cr.length then
    .error "coeffs and table must have the same shape"
  else
    let tables := Quantizer.get_quant_tables cfg.quality
    let zzY := blocks_Y.map (processBlock bs D tables.1)
    let zzCb := blocks_Cb.map (processBlock bs D tables.2)
    let zzCr := blocks_Cr.map (processBlock bs D tables.2)
    let all_blocks := zzY ++ zzCb ++ zzCr
    let dc_vals := all_blocks.map fun blk => blk.getD 0 0
    let ac_vals := all_blocks.flatMap fun blk => int16ListBytes (blk.drop 1)
    let dc_diff ← DCDifferentialCodec.encode dc_vals
    let dc_bytes := int16ListBytes dc_diff
    let ac_rle := rleC ac_vals
    let payload := huffC (dc_bytes ++ ac_rle)
    let header ← packHeader w h bs cfg.quality nchw nchh
    .ok (header ++ payload)

/-- Decompress step 5 for one tile index: slice the next AC chunk, read it as
int16 values, and build the full zigzag block with the DC value at index 0
(assignment into the int16 array narrows; numpy broadcasting also accepts a
single value for the whole AC slice). -/
def buildBlock (bs : ℕ) (dc_vals : List ℤ) (ac_vals : List ℕ) (i : ℕ) :
    Except String (List ℤ) :=
  let abb := (bs * bs - 1) * 2
  let chunk := (ac_vals.drop (i * abb)).take abb
  if chunk.length % 2 ≠ 0 then .error "buffer size must be a multiple of element size"
  else
    let zz := int16sOfBytes chunk
    if hi : i < dc_vals.length then
      let dc := toInt16 (dc_vals.get ⟨i, hi⟩)
      if zz.length = bs * bs - 1 then .ok (dc :: zz)
      else if zz.length = 1 then .ok (dc :: List.replicate (bs * bs - 1) (zz.getD 0 0))
      else .error "could not broadcast ac chunk into block"
    else .error "list index out of range"

/-- The block rebuild loop of `decompress` step 5, from tile index `i` for
`cnt` tiles. -/
def buildBlocks (bs : ℕ) (dc_vals : List ℤ) (ac_vals : List ℕ) :
    ℕ → ℕ → Except String (List (List ℤ))
  | _, 0 => .ok []
  | i, cnt + 1 => do
      let blk ← buildBlock bs dc_vals ac_vals i
      let rest ← buildBlocks bs dc_vals ac_vals (i + 1) cnt
      .ok (blk :: rest)

/-- The inner `merge` helper of `decompress` step 7: serialize each restored
tile and reassemble the plane through `BlockSplitter.inverse`. -/
def mergeTiles (bs fill : ℕ) (tiles : List (ℕ → ℕ → ℕ)) (w h : ℕ) :
    Except String (List ℕ) :=
  BlockSplitter.inverse bs fill (tiles.map fun p => planeBytes p bs bs) w h

/-- Decompress step 6 for one zigzag block: inverse zigzag, dequantize
(whose same-shape check couples the 8×8 table to the block size), inverse
DCT, shift by +128, clip to `[0, 255]` and narrow to uint8. -/
def restoreTile (bs : ℕ) (D : ℕ → ℕ → ℚ) (table : List (List ℕ)) (blk : List ℤ) :
    Except String (ℕ → ℕ → ℕ) := do
  let Q ← ZigZag.decode bs blk
  if bs ≠ 8 then .error "qcoeffs and table must have the same shape"
  else
    let Cm : ℕ → ℕ → ℚ := fun i j =>
      Quantizer.dequantize (Q i j) (((table.getD i []).getD j 0 : ℕ) : ℚ)
    let mat := DCT2D.inverse bs D Cm
    .ok fun r c => (ratFloor (max 0 (min 255 (mat r c + 128)))).toNat

/-- The pixel tile produced by `restoreTile` on the success path: inverse
zigzag into a zero tile, dequantize, inverse DCT, `+128`, clip, uint8. -/
def restoreValue (D : ℕ → ℕ → ℚ) (table : List (List ℕ)) (blk : List ℤ) :
    ℕ → ℕ → ℕ :=
  let Q := ZigZag.writeCells blk (ZigZag.genIndices 8) 0 fun _ _ => 0
  let Cm : ℕ → ℕ → ℚ := fun i j =>
    Quantizer.dequantize (Q i j) (((table.getD i []).getD j 0 : ℕ) : ℚ)
  fun r c => (ratFloor (max 0 (min 255 (DCT2D.inverse 8 D Cm r c + 128)))).toNat

/-- Embedding of `JPEGCompressor.decompress`.  `resize` stands for the
imaging library's bilinear `Image.resize` used by `Downsampler.upsample`
(arguments: source plane, source height and width, target height and width,
target cell); it reads nothing from the codec configuration. -/
def decompress (D : ℕ → ℕ → ℚ) (rleD huffD : List ℕ → List ℕ)
    (resize : (ℕ → ℕ → ℕ) → ℕ → ℕ → ℕ → ℕ → ℕ → ℕ → ℕ)
    (cfg : Config) (data : List ℕ) : Except String (ℕ × ℕ × List ℕ) := do
  let (w, h, bs, q, dsw, dsh, payload) ← parseHeader data
  -- module re-initialization performs the constructor checks again
  if bs = 0 then .error "block_size must be positive"
  else if ¬(cfg.fill_value ≤ 255) then .error "fill_value out of range"
  else if cfg.sub_y = 0 ∨ cfg.sub_x = 0 then .error "subsample factors must be positive"
  else
    let tables := Quantizer.get_quant_tables q
    let combined := huffD payload
    let nY := ((w + bs - 1) / bs) * ((h + bs - 1) / bs)
    let nC := ((dsw + bs - 1) / bs) * ((dsh + bs - 1) / bs)
    let total := nY + 2 * nC
    let dc_bytes := combined.take (total * 2)
    let ac_rle := combined.drop (total * 2)
    if dc_bytes.length % 2 ≠ 0 then .error "buffer size must be a multiple of element size"
    else do
      let dc_vals ← DCDifferentialCodec.decode (int16sOfBytes dc_bytes)
      let ac_vals := rleD ac_rle
      let all_blocks ← buildBlocks bs dc_vals ac_vals 0 total
      let out_Y ← (all_blocks.take nY).mapM (restoreTile bs D tables.1)
      let out_Cb ← ((all_blocks.drop nY).take nC).mapM (restoreTile bs D tables.2)
      let out_Cr ← ((all_blocks.drop (nY + nC)).take nC).mapM (restoreTile bs D tables.2)
      let rawY ← mergeTiles bs cfg.fill_value out_Y w h
      let rawCb ← mergeTiles bs cfg.fill_value out_Cb dsw dsh
      let rawCr ← mergeTiles bs cfg.fill_value out_Cr dsw dsh
      let Yc : ℕ → ℕ → ℕ := fun y x => rawY.getD (y * w + x) 0
      let Cbc : ℕ → ℕ → ℕ := fun y x => rawCb.getD (y * dsw + x) 0
      let Crc : ℕ → ℕ → ℕ := fun y x => rawCr.getD (y * dsw + x) 0
      let CbUp : ℕ → ℕ → ℕ := fun y x => resize Cbc dsh dsw h w y x
      let CrUp : ℕ → ℕ → ℕ := fun y x => resize Crc dsh dsw h w y x
      let merged := (List.range (h * w)).flatMap fun k =>
        [Yc (k / w) (k % w), CbUp (k / w) (k % w), CrUp (k / w) (k % w)]
      let rgb ← RGBToYCbCr.inverse merged
      if rgb.length ≠ 3 * (w * h) then .error "not enough image data"
      else .ok (w, h, rgb)

end JPEGCompressor

theorem ratFloor_eq (x : ℚ) : ratFloor x = ⌊x⌋ := Rat.floor_def.symm

/-- The distance from a rational to its half-even rounding is at most `1/2`. -/
theorem abs_roundHalfEven_sub_le (x : ℚ) : |(roundHalfEven x : ℚ) - x| ≤ 1/2 := by
  have hf : (⌊x⌋ : ℚ) ≤ x := Int.floor_le x
  have hc : x < ⌊x⌋ + 1 := Int.lt_floor_add_one x
  unfold roundHalfEven
  rw [ratFloor_eq]
  split
  · rename_i h
    rw [abs_sub_comm, abs_of_nonneg (by linarith)]
    linarith
  · rename_i h
    push_neg at h
    split
    · rename_i h2
      push_cast
      rw [abs_of_nonneg (by linarith)]
      linarith
    · rename_i h2
      push_neg at h2
      have heq : x - ⌊x⌋ = 1/2 := le_antisymm h2 h
      split
      · rw [abs_sub_comm, abs_of_nonneg (by linarith)]
        linarith
      · push_cast
        rw [abs_of_nonneg (by linarith)]
        linarith

theorem divmod_pair (b q r : ℕ) (h : r < b) : (q * b + r) / b = q ∧ (q * b + r) % b = r := by
  constructor
  · rw [Nat.mul_comm q b, Nat.mul_add_div (by omega), Nat.div_eq_of_lt h]
    omega
  · rw [Nat.mul_comm q b, Nat.mul_add_mod, Nat.mod_eq_of_lt h]

theorem div_eq_iff_pair (b q y : ℕ) (h : 0 < b) :
    y / b = q ↔ (q * b ≤ y ∧ y < q * b + b) := by
  constructor
  · intro he
    subst he
    refine ⟨Nat.div_mul_le_self y b, ?_⟩
    conv_lhs => rw [← Nat.div_add_mod y b]
    have := Nat.mod_lt y h
    rw [Nat.mul_comm]
    omega
  · intro ⟨h1, h2⟩
    have hy : y = q * b + (y - q * b) := by omega
    rw [hy, (divmod_pair b q (y - q * b) (by omega)).1]

namespace RGBToYCbCr

theorem mapTriples_length (f : ℕ → ℕ → ℕ → ℕ × ℕ × ℕ) :
    ∀ data : List ℕ, data.length % 3 = 0 → (mapTriples f data).length = data.length
  | [], _ => rfl
  | [_], h => by simp at h
  | [_, _], h => by simp at h
  | a :: b :: c :: rest, h => by
      have hr : rest.length % 3 = 0 := by
        simp only [List.length_cons] at h
        omega
      simp [mapTriples, mapTriples_length f rest hr]

theorem mapTriples_getD (f : ℕ → ℕ → ℕ → ℕ × ℕ × ℕ) :
    ∀ (data : List ℕ) (k : ℕ), 3 * k + 2 < data.length →
      (mapTriples f data).getD (3 * k) 0 =
        (f (data.getD (3 * k) 0) (data.getD (3 * k + 1) 0) (data.getD (3 * k + 2) 0)).1 ∧
      (mapTriples f data).getD (3 * k + 1) 0 =
        (f (data.getD (3 * k) 0) (data.getD (3 * k + 1) 0) (data.getD (3 * k + 2) 0)).2.1 ∧
      (mapTriples f data).getD (3 * k + 2) 0 =
        (f (data.getD (3 * k) 0) (data.getD (3 * k + 1) 0) (data.getD (3 * k + 2) 0)).2.2
  | [], k, h => by simp at h
  | [_], k, h => by simp only [List.length_cons, List.length_nil] at h; omega
  | [_, _], k, h => by simp only [List.length_cons, List.length_nil] at h; omega
  | a :: b :: c :: rest, k, h => by
      match k with
      | 0 => simp [mapTriples]
      | Nat.succ k' =>
          have h' : 3 * k' + 2 < rest.length := by
            simp only [List.length_cons] at h
            omega
          have ih := mapTriples_getD f rest k' h'
          have e1 : 3 * (k' + 1) = 3 * k' + 1 + 1 + 1 := by ring
          have e2 : 3 * (k' + 1) + 1 = 3 * k' + 1 + 1 + 1 + 1 := by ring
          have e3 : 3 * (k' + 1) + 2 = 3 * k' + 2 + 1 + 1 + 1 := by ring
          simp only [mapTriples, e1, e2, e3, List.getD_cons_succ]
          have e4 : 3 * k' + 1 + 1 = 3 * k' + 2 := by ring
          have e5 : 3 * k' + 1 + 1 + 1 = 3 * k' + 2 + 1 := by ring
          simpa [e4, e5] using ih

end RGBToYCbCr

/-- C2 (amended): for every input buffer of triplets, `RGBToYCbCr.convert`
computes each output channel by the BT.601 formula, rounded to the nearest
integer (ties to even) and clamped to `[0,255]`, while `RGBToYCbCr.inverse`
computes each output channel by the inverse formula, truncated toward zero
(Python `int`) and clamped to `[0,255]`. -/
theorem C2_color_transform_channels (data : List ℕ) (k : ℕ)
    (h3 : data.length % 3 = 0) (hk : 3 * k + 2 < data.length) :
    (∃ out, RGBToYCbCr.convert data = .ok out ∧ out.length = data.length ∧
      (let r : ℚ := data.getD (3 * k) 0
       let g : ℚ := data.getD (3 * k + 1) 0
       let b : ℚ := data.getD (3 * k + 2) 0
       out.getD (3 * k) 0 =
         (clampByte (roundHalfEven ((299/1000) * r + (587/1000) * g + (114/1000) * b))).toNat ∧
       out.getD (3 * k + 1) 0 =
         (clampByte (roundHalfEven (-(1687/10000) * r - (3313/10000) * g + (1/2) * b + 128))).toNat ∧
       out.getD (3 * k + 2) 0 =
         (clampByte (roundHalfEven ((1/2) * r - (4187/10000) * g - (813/10000) * b + 128))).toNat)) ∧
    (∃ out, RGBToYCbCr.inverse data = .ok out ∧ out.length = data.length ∧
      (let y : ℚ := data.getD (3 * k) 0
       let cb : ℚ := data.getD (3 * k + 1) 0
       let cr : ℚ := data.getD (3 * k + 2) 0
       out.getD (3 * k) 0 =
         (clampByte (truncToZero (y + (1402/1000) * (cr - 128)))).toNat ∧
       out.getD (3 * k + 1) 0 =
         (clampByte (truncToZero (y - (34414/100000) * (cb - 128) - (71414/100000) * (cr - 128)))).toNat ∧
       out.getD (3 * k + 2) 0 =
         (clampByte (truncToZero (y + (1772/1000) * (cb - 128)))).toNat)) := by
  constructor
  · refine ⟨RGBToYCbCr.mapTriples RGBToYCbCr.yccPixel data, ?_, ?_, ?_⟩
    · simp [RGBToYCbCr.convert, h3]
    · exact RGBToYCbCr.mapTriples_length _ data h3
    · have h := RGBToYCbCr.mapTriples_getD RGBToYCbCr.yccPixel data k hk
      exact ⟨h.1, h.2.1, h.2.2⟩
  · refine ⟨RGBToYCbCr.mapTriples RGBToYCbCr.rgbPixel data, ?_, ?_, ?_⟩
    · simp [RGBToYCbCr.inverse, h3]
    · exact RGBToYCbCr.mapTriples_length _ data h3
    · have h := RGBToYCbCr.mapTriples_getD RGBToYCbCr.rgbPixel data k hk
      exact ⟨h.1, h.2.1, h.2.2⟩

/-- Witness for C2 on the concrete buffer `[255, 0, 0, 10, 20, 30]` at the
second triplet. -/
theorem C2_color_transform_channels_witness :
    ∃ out, RGBToYCbCr.convert [255, 0, 0, 10, 20, 30] = .ok out ∧
      out.getD 3 0 = (clampByte (roundHalfEven
        ((299/1000) * (10:ℚ) + (587/1000) * (20:ℚ) + (114/1000) * (30:ℚ)))).toNat := by
  obtain ⟨out, hok, _, hch⟩ :=
    (C2_color_transform_channels [255, 0, 0, 10, 20, 30] 1 (by decide) (by decide)).1
  exact ⟨out, hok, by simpa using hch.1⟩

/-- Counterexample to C2 as stated: on the YCbCr triplet `(0, 128, 130)` the
code's inverse yields the R channel `int(0 + 1.402·(130−128)) = 2`, whereas
rounding `2.804` to the nearest integer (then clamping) yields `3`. -/
theorem C2_color_transform_counterexample :
    RGBToYCbCr.inverse [0, 128, 130] = .ok [2, 0, 0] ∧
    (clampByte (roundHalfEven ((0:ℚ) + (1402/1000) * ((130:ℚ) - 128)))).toNat = 3 ∧
    (2 : ℕ) ≠ 3 := by
  refine ⟨?_, by with_unfolding_all rfl, by decide⟩
  have : RGBToYCbCr.mapTriples RGBToYCbCr.rgbPixel [0, 128, 130] = [2, 0, 0] := by
    with_unfolding_all rfl
  simp [RGBToYCbCr.inverse, this]

namespace ZigZag

theorem evenRun_mem (n : ℕ) (a b : ℕ) (hb : b < n) :
    ∀ i j, j < n → i + j = a + b → a ≤ i → (a, b) ∈ evenRun n i j := by
  intro i
  induction i with
  | zero =>
      intro j hj hsum ha
      interval_cases a
      have : j = b := by omega
      subst this
      simp [evenRun, hj]
  | succ i ih =>
      intro j hj hsum ha
      rw [evenRun, if_pos hj]
      rcases Nat.eq_or_lt_of_le ha with h | h
      · have : j = b := by omega
        subst this
        subst h
        exact List.mem_cons_self _ _
      · refine List.mem_cons_of_mem _ (ih (j + 1) (by omega) (by omega) (by omega))

theorem oddRun_mem (n : ℕ) (a b : ℕ) (ha : a < n) :
    ∀ j i, i < n → i + j = a + b → b ≤ j → (a, b) ∈ oddRun n i j := by
  intro j
  induction j with
  | zero =>
      intro i hi hsum hb
      interval_cases b
      have : i = a := by omega
      subst this
      simp [oddRun, hi]
  | succ j ih =>
      intro i hi hsum hb
      rw [oddRun, if_pos hi]
      rcases Nat.eq_or_lt_of_le hb with h | h
      · have : i = a := by omega
        subst this
        subst h
        exact List.mem_cons_self _ _
      · refine List.mem_cons_of_mem _ (ih (i + 1) (by omega) (by omega) (by omega))

theorem evenRun_shape (n : ℕ) :
    ∀ i j, ∀ p ∈ evenRun n i j, p.1 + p.2 = i + j ∧ p.1 ≤ i ∧ p.2 < n ∧ j ≤ p.2 := by
  intro i
  induction i with
  | zero =>
      intro j p hp
      rw [evenRun] at hp
      split at hp
      · rcases List.mem_singleton.mp hp with rfl
        rename_i hj
        exact ⟨rfl, le_refl _, hj, le_refl _⟩
      · exact absurd hp (List.not_mem_nil p)
  | succ i ih =>
      intro j p hp
      rw [evenRun] at hp
      split at hp
      · rename_i hj
        rcases List.mem_cons.mp hp with rfl | hp'
        · exact ⟨rfl, le_refl _, hj, le_refl _⟩
        · obtain ⟨h1, h2, h3, h4⟩ := ih (j + 1) p hp'
          exact ⟨by omega, by omega, h3, by omega⟩
      · exact absurd hp (List.not_mem_nil p)

theorem oddRun_shape (n : ℕ) :
    ∀ j i, ∀ p ∈ oddRun n i j, p.1 + p.2 = i + j ∧ p.2 ≤ j ∧ p.1 < n ∧ i ≤ p.1 := by
  intro j
  induction j with
  | zero =>
      intro i p hp
      rw [oddRun] at hp
      split at hp
      · rcases List.mem_singleton.mp hp with rfl
        rename_i hi
        exact ⟨rfl, le_refl _, hi, le_refl _⟩
      · exact absurd hp (List.not_mem_nil p)
  | succ j ih =>
      intro i p hp
      rw [oddRun] at hp
      split at hp
      · rename_i hi
        rcases List.mem_cons.mp hp with rfl | hp'
        · exact ⟨rfl, le_refl _, hi, le_refl _⟩
        · obtain ⟨h1, h2, h3, h4⟩ := ih (i + 1) p hp'
          exact ⟨by omega, by omega, h3, by omega⟩
      · exact absurd hp (List.not_mem_nil p)

theorem evenRun_nodup (n : ℕ) : ∀ i j, (evenRun n i j).Nodup := by
  intro i
  induction i with
  | zero =>
      intro j
      rw [evenRun]
      split <;> simp
  | succ i ih =>
      intro j
      rw [evenRun]
      split
      · refine List.Nodup.cons ?_ (ih (j + 1))
        intro hmem
        have := (evenRun_shape n i (j + 1) _ hmem).2.2.2
        omega
      · exact List.nodup_nil

theorem oddRun_nodup (n : ℕ) : ∀ j i, (oddRun n i j).Nodup := by
  intro j
  induction j with
  | zero =>
      intro i
      rw [oddRun]
      split <;> simp
  | succ j ih =>
      intro i
      rw [oddRun]
      split
      · refine List.Nodup.cons ?_ (ih (i + 1))
        intro hmem
        have := (oddRun_shape n j (i + 1) _ hmem).2.2.2
        omega
      · exact List.nodup_nil

/-- Every in-bounds cell of the `n × n` tile appears in the zigzag order. -/
theorem genIndices_mem (n : ℕ) (a b : ℕ) (ha : a < n) (hb : b < n) :
    (a, b) ∈ genIndices n := by
  rw [genIndices, List.mem_flatMap]
  refine ⟨a + b, List.mem_range.mpr (by omega), ?_⟩
  by_cases hpar : (a + b) % 2 = 0
  · rw [if_pos hpar]
    exact evenRun_mem n a b hb _ _ (by omega) (by omega) (by omega)
  · rw [if_neg hpar]
    exact oddRun_mem n a b ha _ _ (by omega) (by omega) (by omega)

/-- Every cell emitted by the zigzag order is in bounds, and lies on the
anti-diagonal it was generated from. -/
theorem genIndices_shape (n : ℕ) (s : ℕ) (p : ℕ × ℕ)
    (hp : p ∈ if s % 2 = 0 then evenRun n (min s (n - 1)) (s - min s (n - 1))
      else oddRun n (s - min s (n - 1)) (min s (n - 1))) :
    p.1 < n ∧ p.2 < n ∧ p.1 + p.2 = s := by
  split at hp
  · obtain ⟨h1, h2, h3, h4⟩ := evenRun_shape n _ _ p hp
    have hmin : min s (n - 1) ≤ n - 1 := min_le_right _ _
    have hmin2 : min s (n - 1) ≤ s := min_le_left _ _
    exact ⟨by omega, h3, by omega⟩
  · obtain ⟨h1, h2, h3, h4⟩ := oddRun_shape n _ _ p hp
    have hmin : min s (n - 1) ≤ n - 1 := min_le_right _ _
    have hmin2 : min s (n - 1) ≤ s := min_le_left _ _
    exact ⟨h3, by omega, by omega⟩

theorem genIndices_nodup (n : ℕ) : (genIndices n).Nodup := by
  rw [genIndices, List.nodup_flatMap]
  constructor
  · intro s _
    split
    · exact evenRun_nodup n _ _
    · exact oddRun_nodup n _ _
  · refine List.Pairwise.imp ?_ (List.pairwise_lt_range (2 * n - 1))
    intro s s' hlt
    rw [Function.onFun, List.disjoint_left]
    intro p hp hp'
    have h1 := (genIndices_shape n s p hp).2.2
    have h2 := (genIndices_shape n s' p hp').2.2
    omega

theorem genIndices_toFinset (n : ℕ) :
    (genIndices n).toFinset = Finset.range n ×ˢ Finset.range n := by
  ext p
  rw [List.mem_toFinset, Finset.mem_product, Finset.mem_range, Finset.mem_range]
  constructor
  · intro hp
    rw [genIndices, List.mem_flatMap] at hp
    obtain ⟨s, _, hmem⟩ := hp
    have := genIndices_shape n s p hmem
    exact ⟨this.1, this.2.1⟩
  · intro ⟨h1, h2⟩
    exact genIndices_mem n p.1 p.2 h1 h2

/-- The zigzag order visits exactly `n²` cells. -/
theorem genIndices_length (n : ℕ) : (genIndices n).length = n * n := by
  have h := List.toFinset_card_of_nodup (genIndices_nodup n)
  rw [genIndices_toFinset] at h
  rw [← h, Finset.card_product, Finset.card_range]

theorem writeCells_not_mem (data : List ℤ) :
    ∀ (l : List (ℕ × ℕ)) (idx : ℕ) (b : ℕ → ℕ → ℤ) (i j : ℕ), (i, j) ∉ l →
      writeCells data l idx b i j = b i j := by
  intro l
  induction l with
  | nil => intro idx b i j _; rfl
  | cons p rest ih =>
      intro idx b i j hnot
      rw [writeCells, ih _ _ i j (fun h => hnot (List.mem_cons_of_mem _ h))]
      have hne : ¬(i = p.1 ∧ j = p.2) := by
        intro ⟨h1, h2⟩
        exact hnot (by rw [List.mem_cons]; left; rw [h1, h2])
      simp [hne]

theorem writeCells_mem (data : List ℤ) (t : ℕ → ℕ → ℤ) :
    ∀ (l : List (ℕ × ℕ)) (idx : ℕ) (b : ℕ → ℕ → ℤ) (i j : ℕ), (i, j) ∈ l →
      (∀ k (hk : k < l.length), data.getD (idx + k) 0 = t (l.get ⟨k, hk⟩).1 (l.get ⟨k, hk⟩).2) →
      writeCells data l idx b i j = t i j := by
  intro l
  induction l with
  | nil => intro idx b i j h; exact absurd h (List.not_mem_nil _)
  | cons p rest ih =>
      intro idx b i j hmem hdata
      rw [writeCells]
      by_cases hrest : (i, j) ∈ rest
      · refine ih (idx + 1) _ i j hrest ?_
        intro k hk
        have := hdata (k + 1) (by simpa using Nat.succ_lt_succ hk)
        have e : idx + 1 + k = idx + (k + 1) := by omega
        rw [e]
        simpa using this
      · have hp : p = (i, j) := by
          rcases List.mem_cons.mp hmem with h | h
          · exact h.symm
          · exact absurd h hrest
        rw [writeCells_not_mem data rest (idx + 1) _ i j hrest]
        have h0 := hdata 0 (by simp)
        simp only [List.get] at h0
        subst hp
        simp only [Nat.add_zero] at h0
        simpa [List.getD] using h0

end ZigZag

/-- C4: zigzag decode is a left inverse of encode on every `N × N` tile (the
traversal order `genIndices` depends only on `N`), and the specification's
4×4 tile encodes to `[1, 2, ..., 16]`. -/
theorem C4_zigzag_roundtrip :
    (∀ (n : ℕ) (t : ℕ → ℕ → ℤ) (i j : ℕ), 1 ≤ n → i < n → j < n →
      (ZigZag.decode n (ZigZag.encode n t)).map (fun t' => t' i j) = Except.ok (t i j)) ∧
    ZigZag.encode 4 zzTile4 = [1, 2, 3, 4, 5, 6, 7, 8, 9, 10, 11, 12, 13, 14, 15, 16] := by
  constructor
  · intro n t i j _ hi hj
    have hlen : (ZigZag.encode n t).length = n * n := by
      rw [ZigZag.encode, List.length_map, ZigZag.genIndices_length]
    rw [ZigZag.decode, if_neg (by rw [hlen]; exact fun h => h rfl)]
    rw [Except.map, ZigZag.writeCells_mem (ZigZag.encode n t) t (ZigZag.genIndices n) 0 _ i j
      (ZigZag.genIndices_mem n i j hi hj) ?_]
    intro k hk
    rw [ZigZag.encode]
    have hk' : k < ((ZigZag.genIndices n).map fun p => t p.1 p.2).length := by
      simpa using hk
    rw [Nat.zero_add, List.getD_eq_getElem _ _ hk', List.getElem_map]
    simp [List.get_eq_getElem]
  · with_unfolding_all rfl

/-- Witness for C4 on the concrete 4×4 test tile at cell `(2, 3)`. -/
theorem C4_zigzag_roundtrip_witness :
    (ZigZag.decode 4 (ZigZag.encode 4 zzTile4)).map (fun t' => t' 2 3) =
      Except.ok (zzTile4 2 3) :=
  C4_zigzag_roundtrip.1 4 zzTile4 2 3 (by decide) (by decide) (by decide)

namespace DCDifferentialCodec

theorem decodeSums_encodeDiffs (prev : ℤ) (xs : List ℤ) :
    decodeSums prev (encodeDiffs prev xs) = xs := by
  induction xs generalizing prev with
  | nil => rfl
  | cons c rest ih =>
      simp only [encodeDiffs, decodeSums, add_sub_cancel]
      exact congrArg (c :: ·) (ih c)

end DCDifferentialCodec

/-- C3: the DC differential codec round-trips every non-empty integer sequence
(in particular a length-1 sequence, whose encoding equals itself), and
`encode [100,102,98,105,105,110] = [100,2,-4,7,0,5]`. -/
theorem C3_dc_differential_roundtrip :
    (∀ s : List ℤ, s ≠ [] →
      ∃ e, DCDifferentialCodec.encode s = .ok e ∧ DCDifferentialCodec.decode e = .ok s) ∧
    (∀ x : ℤ, DCDifferentialCodec.encode [x] = .ok [x] ∧
      DCDifferentialCodec.decode [x] = .ok [x]) ∧
    DCDifferentialCodec.encode [100, 102, 98, 105, 105, 110] =
      .ok [100, 2, -4, 7, 0, 5] := by
  refine ⟨?_, ?_, by rfl⟩
  · intro s hs
    match s with
    | [] => exact absurd rfl hs
    | x :: xs =>
        refine ⟨x :: DCDifferentialCodec.encodeDiffs x xs, rfl, ?_⟩
        simp only [DCDifferentialCodec.decode, DCDifferentialCodec.decodeSums_encodeDiffs]
  · intro x
    exact ⟨rfl, rfl⟩

/-- Witness for C3 at the concrete sequence `[7, 3]`. -/
theorem C3_dc_differential_roundtrip_witness :
    ∃ e, DCDifferentialCodec.encode [(7:ℤ), 3] = .ok e ∧
      DCDifferentialCodec.decode e = .ok [(7:ℤ), 3] :=
  C3_dc_differential_roundtrip.1 [(7:ℤ), 3] (by decide)

theorem mul_add_lt_mul (a A b B : ℕ) (ha : a < A) (hb : b < B) : a * B + b < A * B :=
  calc a * B + b < a * B + B := by omega
    _ = (a + 1) * B := by ring
    _ ≤ A * B := Nat.mul_le_mul_right B ha

/-- Ceiling division bound: `m ≤ ceil(m / bs) * bs`. -/
theorem le_ceil_mul (bs m : ℕ) (hbs : 0 < bs) : m ≤ ((m + bs - 1) / bs) * bs := by
  by_contra hcon
  push_neg at hcon
  have h1 : ((m + bs - 1) / bs) * bs + bs ≤ m + bs - 1 := by omega
  have h2 : ((m + bs - 1) / bs + 1) * bs ≤ m + bs - 1 := by
    rw [Nat.add_mul, Nat.one_mul]
    exact h1
  have h3 : (m + bs - 1) / bs + 1 ≤ (m + bs - 1) / bs :=
    (Nat.le_div_iff_mul_le hbs).mpr h2
  omega

namespace BlockSplitter

theorem writeBlocks_not_covered (bs nbw y x : ℕ) :
    ∀ (l : List (List ℕ)) (idx0 : ℕ) (b : ℕ → ℕ → ℕ),
      (∀ k, k < l.length → ¬ inTile bs ((idx0 + k) / nbw) ((idx0 + k) % nbw) y x) →
      writeBlocks bs nbw l idx0 b y x = b y x := by
  intro l
  induction l with
  | nil => intro idx0 b _; rfl
  | cons blk rest ih =>
      intro idx0 b hno
      rw [writeBlocks]
      rw [ih (idx0 + 1) _ ?_]
      · have h0 := hno 0 (by simp)
        simp only [Nat.add_zero] at h0
        rw [writeBlock, if_neg h0]
      · intro k hk
        have hk' : k + 1 < (blk :: rest).length := by
          simp only [List.length_cons]
          omega
        have := hno (k + 1) hk'
        have e : idx0 + 1 + k = idx0 + (k + 1) := by omega
        rw [e]
        exact this

theorem writeBlocks_covered (bs nbw y x : ℕ) :
    ∀ (l : List (List ℕ)) (idx0 : ℕ) (b : ℕ → ℕ → ℕ) (k0 : ℕ) (hk0 : k0 < l.length),
      inTile bs ((idx0 + k0) / nbw) ((idx0 + k0) % nbw) y x →
      (∀ k, k < l.length → k ≠ k0 → ¬ inTile bs ((idx0 + k) / nbw) ((idx0 + k) % nbw) y x) →
      writeBlocks bs nbw l idx0 b y x =
        (l.getD k0 []).getD
          ((y - ((idx0 + k0) / nbw) * bs) * bs + (x - ((idx0 + k0) % nbw) * bs)) 0 := by
  intro l
  induction l with
  | nil =>
      intro idx0 b k0 hk0
      exact absurd hk0 (by simp)
  | cons blk rest ih =>
      intro idx0 b k0 hk0 hcov huniq
      rw [writeBlocks]
      match k0 with
      | 0 =>
          rw [writeBlocks_not_covered bs nbw y x rest (idx0 + 1) _ ?_]
          · simp only [Nat.add_zero] at hcov ⊢
            rw [writeBlock, if_pos hcov]
            simp [List.getD]
          · intro k hk
            have hk' : k + 1 < (blk :: rest).length := by
              simp only [List.length_cons]
              omega
            have := huniq (k + 1) hk' (by omega)
            have e : idx0 + 1 + k = idx0 + (k + 1) := by omega
            rw [e]
            exact this
      | k0' + 1 =>
          have hk0' : k0' < rest.length := by
            simp only [List.length_cons] at hk0
            omega
          have e : idx0 + 1 + k0' = idx0 + (k0' + 1) := by omega
          rw [ih (idx0 + 1) _ k0' hk0' (by rw [e]; exact hcov) ?_]
          · simp only [e, List.getD_cons_succ]
          · intro k hk hne
            have hk' : k + 1 < (blk :: rest).length := by
              simp only [List.length_cons]
              omega
            have := huniq (k + 1) hk' (by omega)
            have e2 : idx0 + 1 + k = idx0 + (k + 1) := by omega
            rw [e2]
            exact this

end BlockSplitter

/-- C5: splitting a single-channel plane into tiles and merging them back
returns the original plane exactly, for every width ≥ 1, height ≥ 1, block
size ≥ 1 and fill value in `[0, 255]`. -/
theorem C5_block_splitter_roundtrip (bs fill w h : ℕ) (data : List ℕ)
    (hbs : 1 ≤ bs) (hw : 1 ≤ w) (hh : 1 ≤ h) (hfill : fill ≤ 255)
    (hlen : data.length = w * h) :
    ∃ blocks, BlockSplitter.convert bs fill data w h = .ok blocks ∧
      BlockSplitter.inverse bs fill blocks w h = .ok data := by
  have hbs0 : 0 < bs := hbs
  set nbw := (w + bs - 1) / bs with hnbw
  set nbh := (h + bs - 1) / bs with hnbh
  set blocks := (List.range (nbh * nbw)).map (BlockSplitter.tileAt bs fill data w h nbw)
    with hblocks
  have hwle : w ≤ nbw * bs := le_ceil_mul bs w hbs0
  have hhle : h ≤ nbh * bs := le_ceil_mul bs h hbs0
  have hblen : blocks.length = nbh * nbw := by
    rw [hblocks, List.length_map, List.length_range]
  refine ⟨blocks, ?_, ?_⟩
  · rw [BlockSplitter.convert, if_neg (by omega)]
  · rw [BlockSplitter.inverse, ← hnbw, ← hnbh,
      if_neg (not_ne_iff.mpr (by rw [hblen]; exact Nat.mul_comm nbh nbw))]
    have hall : (blocks.any fun blk => blk.length != bs * bs) = false := by
      rw [List.any_eq_false]
      intro blk hblk
      rw [hblocks, List.mem_map] at hblk
      obtain ⟨bIdx, _, rfl⟩ := hblk
      simp [BlockSplitter.tileAt]
    rw [hall]
    simp only [Bool.false_eq_true, if_false]
    refine congrArg Except.ok ?_
    refine List.ext_getElem (by simp [hlen]; ring) ?_
    intro k hk1 hk2
    rw [List.getElem_map, List.getElem_range]
    have hkhw : k < h * w := by simpa using hk1
    set y := k / w with hy
    set x := k % w with hx
    have hyh : y < h := by
      rw [hy]
      rw [Nat.div_lt_iff_lt_mul (by omega)]
      exact hkhw
    have hxw : x < w := Nat.mod_lt k (by omega)
    have hkyx : y * w + x = k := by
      rw [hy, hx]
      conv_rhs => rw [← Nat.div_add_mod k w]
      rw [Nat.mul_comm]
    -- the unique tile covering (y, x)
    set row := y / bs with hrow
    set col := x / bs with hcol
    have hrowlt : row < nbh := by
      rw [hrow, Nat.div_lt_iff_lt_mul hbs0]
      omega
    have hcollt : col < nbw := by
      rw [hcol, Nat.div_lt_iff_lt_mul hbs0]
      omega
    set idx := row * nbw + col with hidx
    have hidxlt : idx < nbh * nbw := mul_add_lt_mul row nbh col nbw hrowlt hcollt
    have hdm := divmod_pair nbw row col hcollt
    have hydm : row * bs + y % bs = y := by
      rw [hrow]
      conv_rhs => rw [← Nat.div_add_mod y bs]
      rw [Nat.mul_comm]
    have hxdm : col * bs + x % bs = x := by
      rw [hcol]
      conv_rhs => rw [← Nat.div_add_mod x bs]
      rw [Nat.mul_comm]
    have hymod : y % bs < bs := Nat.mod_lt y hbs0
    have hxmod : x % bs < bs := Nat.mod_lt x hbs0
    have hcov : BlockSplitter.inTile bs (idx / nbw) (idx % nbw) y x := by
      rw [hdm.1, hdm.2, BlockSplitter.inTile]
      refine ⟨?_, ?_, ?_, ?_⟩ <;> omega
    have huniq : ∀ j, j < blocks.length → j ≠ idx →
        ¬ BlockSplitter.inTile bs ((0 + j) / nbw) ((0 + j) % nbw) y x := by
      intro j _ hne hcontra
      rw [Nat.zero_add, BlockSplitter.inTile] at hcontra
      have hjr : y / bs = j / nbw :=
        (div_eq_iff_pair bs (j / nbw) y hbs0).mpr ⟨hcontra.1, hcontra.2.1⟩
      have hjc : x / bs = j % nbw :=
        (div_eq_iff_pair bs (j % nbw) x hbs0).mpr ⟨hcontra.2.2.1, hcontra.2.2.2⟩
      have hjdm : (j / nbw) * nbw + j % nbw = j := by
        conv_rhs => rw [← Nat.div_add_mod j nbw]
        rw [Nat.mul_comm]
      apply hne
      rw [hidx, hrow, hcol, hjr, hjc, hjdm]
    have hres := BlockSplitter.writeBlocks_covered bs nbw y x blocks 0 (fun _ _ => fill)
      idx (by omega) (by rw [Nat.zero_add]; exact hcov) (by simpa using huniq)
    rw [hres]
    have hget : blocks.getD idx [] = BlockSplitter.tileAt bs fill data w h nbw idx := by
      rw [hblocks]
      have hidx' : idx < ((List.range (nbh * nbw)).map
          (BlockSplitter.tileAt bs fill data w h nbw)).length := by
        simpa using hidxlt
      rw [List.getD_eq_getElem _ _ hidx', List.getElem_map, List.getElem_range]
    rw [hget, Nat.zero_add, hdm.1, hdm.2]
    have hty : y - row * bs = y % bs := by omega
    have htx : x - col * bs = x % bs := by omega
    rw [hty, htx]
    set t := (y % bs) * bs + x % bs with ht
    have htlt : t < bs * bs := mul_add_lt_mul (y % bs) bs (x % bs) bs hymod hxmod
    have htdm := divmod_pair bs (y % bs) (x % bs) hxmod
    rw [BlockSplitter.tileAt]
    have htlen : t < ((List.range (bs * bs)).map fun tIdx =>
        BlockSplitter.paddedAt fill data w h ((idx / nbw) * bs + tIdx / bs)
          ((idx % nbw) * bs + tIdx % bs)).length := by
      simpa using htlt
    rw [List.getD_eq_getElem _ _ htlen, List.getElem_map, List.getElem_range]
    rw [hdm.1, hdm.2, htdm.1, htdm.2]
    have hcy : row * bs + y % bs = y := by omega
    have hcx : col * bs + x % bs = x := by omega
    rw [hcy, hcx, BlockSplitter.paddedAt, if_pos ⟨hyh, hxw⟩, hkyx]
    exact List.getD_eq_getElem data 0 hk2

/-- Witness for C5 on a concrete 3×2 plane with block size 2. -/
theorem C5_block_splitter_roundtrip_witness :
    ∃ blocks, BlockSplitter.convert 2 0 [1, 2, 3, 4, 5, 6] 3 2 = .ok blocks ∧
      BlockSplitter.inverse 2 0 blocks 3 2 = .ok [1, 2, 3, 4, 5, 6] :=
  C5_block_splitter_roundtrip 2 0 3 2 [1, 2, 3, 4, 5, 6]
    (by decide) (by decide) (by decide) (by decide) (by decide)

/-- C6: every entry of both scaled quantization tables equals
`clamp(floor((base·scale + 50)/100), 1, 255)` with `scale = 5000/q` (integer
division) when the `[1,100]`-clamped quality `q` is below 50 and
`scale = 200 − 2q` otherwise. -/
theorem C6_quant_tables (quality i j : ℕ) (hq : quality ≤ 100) (hi : i < 8) (hj : j < 8) :
    ((Quantizer.get_quant_tables quality).1.getD i []).getD j 0 =
      specQuantEntry quality ((Quantizer.baseLuminance.getD i []).getD j 0) ∧
    ((Quantizer.get_quant_tables quality).2.getD i []).getD j 0 =
      specQuantEntry quality ((Quantizer.baseChrominance.getD i []).getD j 0) := by
  interval_cases i <;> interval_cases j <;> exact ⟨rfl, rfl⟩

/-- Witness for C6 at quality 75, entry (0, 0). -/
theorem C6_quant_tables_witness :
    ((Quantizer.get_quant_tables 75).1.getD 0 []).getD 0 0 =
      specQuantEntry 75 ((Quantizer.baseLuminance.getD 0 []).getD 0 0) :=
  (C6_quant_tables 75 0 0 (by decide) (by decide) (by decide)).1

theorem toInt32_eq_self (v : ℤ) (hlo : -2147483648 ≤ v) (hhi : v < 2147483648) :
    Quantizer.toInt32 v = v := by
  unfold Quantizer.toInt32
  omega

/-- Counterexample to C7 as stated: on the coefficient `2^31` with table entry
`1`, `quantize` rounds the quotient to `2^31` and its `astype(np.int32)` wraps
the value to `−2^31`, so dequantizing returns `−2^31` and the reconstruction
error is `2^32`, far above `t/2 = 1/2`. -/
theorem C7_quantizer_bound_counterexample :
    Quantizer.quantize ((2147483648 : ℚ)) 1 = -2147483648 ∧
    ¬ |Quantizer.dequantize (Quantizer.quantize ((2147483648 : ℚ)) 1) 1 -
        (2147483648 : ℚ)| ≤ (1 : ℚ) / 2 := by
  have hq : Quantizer.quantize ((2147483648 : ℚ)) 1 = -2147483648 := by
    with_unfolding_all rfl
  refine ⟨hq, ?_⟩
  rw [hq, Quantizer.dequantize]
  norm_num

/-- C7 (amended): for every real-valued coefficient tile and every same-shape
table with entries in `[1, 255]`, provided the coefficient magnitude is at
most `2^31 − 1` — so the rounded quotient fits the int32 dtype of the
quantizer's output — dequantizing the quantized tile recovers each
coefficient to within half the table entry. -/
theorem C7_quantizer_bound (c t : ℕ → ℕ → ℚ) (i j : ℕ)
    (h1 : 1 ≤ t i j) (h255 : t i j ≤ 255) (hc : |c i j| ≤ 2147483647) :
    |Quantizer.dequantize (Quantizer.quantize (c i j) (t i j)) (t i j) - c i j| ≤
      t i j / 2 := by
  have ht0 : (0:ℚ) < t i j := by linarith
  have habs := abs_roundHalfEven_sub_le (c i j / t i j)
  -- the quotient, hence its rounding, fits in int32
  have hqabs : |c i j / t i j| ≤ 2147483647 := by
    rw [abs_div, abs_of_pos ht0]
    exact le_trans (div_le_self (abs_nonneg _) h1) hc
  have hrabs : |(roundHalfEven (c i j / t i j) : ℚ)| ≤ 2147483647 + 1/2 := by
    calc |(roundHalfEven (c i j / t i j) : ℚ)|
        = |((roundHalfEven (c i j / t i j) : ℚ) - c i j / t i j) + c i j / t i j| := by
          ring_nf
      _ ≤ |(roundHalfEven (c i j / t i j) : ℚ) - c i j / t i j| + |c i j / t i j| :=
          abs_add _ _
      _ ≤ 1/2 + 2147483647 := add_le_add habs hqabs
      _ = 2147483647 + 1/2 := by ring
  have hfit : -2147483648 ≤ roundHalfEven (c i j / t i j) ∧
      roundHalfEven (c i j / t i j) < 2147483648 := by
    have hlt : |((roundHalfEven (c i j / t i j) : ℤ) : ℚ)| < 2147483648 := by
      linarith
    rw [← Int.cast_abs] at hlt
    have h2 : |roundHalfEven (c i j / t i j)| < 2147483648 := by exact_mod_cast hlt
    rw [abs_lt] at h2
    exact ⟨le_of_lt h2.1, h2.2⟩
  rw [Quantizer.dequantize, Quantizer.quantize, toInt32_eq_self _ hfit.1 hfit.2]
  have hsplit : (roundHalfEven (c i j / t i j) : ℚ) * t i j - c i j =
      ((roundHalfEven (c i j / t i j) : ℚ) - c i j / t i j) * t i j := by
    field_simp
  rw [hsplit, abs_mul, abs_of_pos ht0]
  calc |(roundHalfEven (c i j / t i j) : ℚ) - c i j / t i j| * t i j
      ≤ (1/2) * t i j := mul_le_mul_of_nonneg_right habs (le_of_lt ht0)
    _ = t i j / 2 := by ring

/-- Witness for C7 at the constant tile `5/2` and table entry `2`. -/
theorem C7_quantizer_bound_witness :
    |Quantizer.dequantize (Quantizer.quantize ((5:ℚ)/2) 2) 2 - (5:ℚ)/2| ≤ (2:ℚ) / 2 :=
  C7_quantizer_bound (fun _ _ => (5:ℚ)/2) (fun _ _ => 2) 0 0
    (by norm_num) (by norm_num) (by norm_num [abs_of_nonneg])

/-- C9: constructing the codec succeeds exactly when the quality lies in
`[0,100]`, the block size is positive, the fill value lies in `[0,255]` and
both subsample factors are positive; each out-of-range parameter is rejected
at construction time. -/
theorem C9_config_validation (quality block_size sub_y sub_x fill_value : ℤ) :
    (∃ c, JPEGCompressor.init quality block_size sub_y sub_x fill_value = .ok c) ↔
      (0 ≤ quality ∧ quality ≤ 100 ∧ 0 < block_size ∧
        0 ≤ fill_value ∧ fill_value ≤ 255 ∧ 0 < sub_y ∧ 0 < sub_x) := by
  constructor
  · intro ⟨c, hc⟩
    unfold JPEGCompressor.init at hc
    split_ifs at hc with h1 h2 h3 h4
    all_goals try exact Except.noConfusion hc
    omega
  · intro ⟨hq1, hq2, hbs, hf1, hf2, hsy, hsx⟩
    unfold JPEGCompressor.init
    rw [if_neg (by omega), if_neg (by omega), if_neg (by omega), if_neg (by omega)]
    exact ⟨_, rfl⟩

/-- Witness for C9: the default-like configuration `(75, 8, (2,2), 0)` is
accepted. -/
theorem C9_config_validation_witness :
    ∃ c, JPEGCompressor.init 75 8 2 2 0 = .ok c :=
  (C9_config_validation 75 8 2 2 0).mpr (by decide)

theorem except_bind_ok {α β : Type} (a : α) (f : α → Except String β) :
    (Except.ok a : Except String α) >>= f = f a := rfl

theorem int16ListBytes_cons (v : ℤ) (l : List ℤ) :
    int16ListBytes (v :: l) = int16Bytes v ++ int16ListBytes l := rfl

theorem int16ListBytes_length (l : List ℤ) :
    (int16ListBytes l).length = 2 * l.length := by
  induction l with
  | nil => rfl
  | cons v rest ih =>
      rw [int16ListBytes_cons, List.length_append, ih, int16Bytes]
      simp only [List.length_cons, List.length_nil, List.length_singleton]
      omega

theorem int16OfBytes_int16Bytes (v : ℤ) :
    int16OfBytes ((v % 65536).toNat % 256) ((v % 65536).toNat / 256) = toInt16 v := by
  have h0 : 0 ≤ v % 65536 := Int.emod_nonneg v (by norm_num)
  have h1 : v % 65536 < 65536 := Int.emod_lt_of_pos v (by norm_num)
  have hm : ((v % 65536).toNat : ℤ) = v % 65536 := Int.toNat_of_nonneg h0
  unfold int16OfBytes toInt16
  split_ifs <;> push_cast <;> omega

theorem int16sOfBytes_cons (lo hi : ℕ) (rest : List ℕ) :
    int16sOfBytes (lo :: hi :: rest) = int16OfBytes lo hi :: int16sOfBytes rest := rfl

theorem int16sOfBytes_int16ListBytes (l : List ℤ) :
    int16sOfBytes (int16ListBytes l) = l.map toInt16 := by
  induction l with
  | nil => rfl
  | cons v rest ih =>
      rw [int16ListBytes_cons, int16Bytes]
      simp only [List.cons_append, List.nil_append]
      rw [int16sOfBytes_cons, ih, int16OfBytes_int16Bytes, List.map_cons]

theorem flatMap_uniform_slice {α β : Type} (f : α → List β) (L : ℕ) (d : α) :
    ∀ (l : List α) (i : ℕ), (∀ a ∈ l, (f a).length = L) → i < l.length →
      ((l.flatMap f).drop (i * L)).take L = f (l.getD i d) := by
  intro l
  induction l with
  | nil => intro i _ hi; simp at hi
  | cons a rest ih =>
      intro i hlen hi
      match i with
      | 0 =>
          rw [List.flatMap_cons, Nat.zero_mul, List.drop_zero, List.getD_cons_zero]
          rw [← hlen a (by simp)]
          exact List.take_left _ _
      | i' + 1 =>
          rw [List.flatMap_cons, List.getD_cons_succ]
          have hdrop : List.drop ((i' + 1) * L) (f a ++ rest.flatMap f) =
              List.drop (i' * L) (rest.flatMap f) := by
            rw [show (i' + 1) * L = L + i' * L by ring, ← List.drop_drop]
            congr 1
            rw [← hlen a (by simp)]
            exact List.drop_left _ _
          rw [hdrop]
          exact ih i' (fun x hx => hlen x (by simp [hx])) (by simpa using hi)

theorem mapM_ok_of_forall {α β : Type} (g : α → Except String β) :
    ∀ l : List α, (∀ a ∈ l, ∃ b, g a = .ok b) →
      ∃ out : List β, l.mapM g = .ok out ∧ out.length = l.length := by
  intro l
  induction l with
  | nil => exact fun _ => ⟨[], rfl, rfl⟩
  | cons a rest ih =>
      intro hall
      obtain ⟨b, hb⟩ := hall a (by simp)
      obtain ⟨out, hout, hlen⟩ := ih fun x hx => hall x (by simp [hx])
      refine ⟨b :: out, ?_, by simp [hlen]⟩
      rw [List.mapM_cons, hb, hout]
      rfl

theorem length_flatMap_triple {α β : Type} (l : List α) (f g h : α → β) :
    (l.flatMap fun k => [f k, g k, h k]).length = 3 * l.length := by
  induction l with
  | nil => rfl
  | cons a rest ih =>
      rw [List.flatMap_cons]
      simp only [List.length_append, List.length_cons, List.length_nil, ih,
        List.length_cons] at *
      omega

theorem ceil_div_le_self (m s : ℕ) (hs : 1 ≤ s) : (m + s - 1) / s ≤ m := by
  have h1 : m ≤ m * s := Nat.le_mul_of_pos_right m (by omega)
  have h2 : m + s - 1 < (m + 1) * s := by
    have he : (m + 1) * s = m * s + s := by ring
    omega
  have h3 := (Nat.div_lt_iff_lt_mul (by omega : 0 < s)).mpr h2
  omega

theorem ceil_div_pos (m s : ℕ) (hs : 1 ≤ s) (hm : 1 ≤ m) : 1 ≤ (m + s - 1) / s := by
  rw [Nat.le_div_iff_mul_le (by omega : 0 < s)]
  omega

theorem planeBytes_length (p : ℕ → ℕ → ℕ) (h w : ℕ) :
    (planeBytes p h w).length = h * w := by
  simp [planeBytes]

namespace DCDifferentialCodec

theorem encodeDiffs_length (prev : ℤ) (l : List ℤ) :
    (encodeDiffs prev l).length = l.length := by
  induction l generalizing prev with
  | nil => rfl
  | cons c rest ih => simp [encodeDiffs, ih]

theorem decodeSums_length (prev : ℤ) (l : List ℤ) :
    (decodeSums prev l).length = l.length := by
  induction l generalizing prev with
  | nil => rfl
  | cons d rest ih => simp [decodeSums, ih]

theorem encode_ok (l : List ℤ) (hl : l ≠ []) :
    ∃ e, encode l = .ok e ∧ e.length = l.length := by
  match l with
  | [] => exact absurd rfl hl
  | x :: xs =>
      exact ⟨x :: encodeDiffs x xs, rfl, by simp [encodeDiffs_length]⟩

theorem encode_eq_ok (l : List ℤ) (hl : l ≠ []) :
    encode l = .ok (l.headI :: encodeDiffs l.headI l.tail) := by
  match l with
  | [] => exact absurd rfl hl
  | x :: xs => rfl

theorem decode_ok (l : List ℤ) (hl : l ≠ []) :
    ∃ e, decode l = .ok e ∧ e.length = l.length := by
  match l with
  | [] => exact absurd rfl hl
  | x :: xs =>
      exact ⟨x :: decodeSums x xs, rfl, by simp [decodeSums_length]⟩

end DCDifferentialCodec

namespace BlockSplitter

theorem convert_ok (bs fill w h : ℕ) (data : List ℕ) (hlen : data.length = w * h) :
    convert bs fill data w h =
      .ok ((List.range (((h + bs - 1) / bs) * ((w + bs - 1) / bs))).map
        (tileAt bs fill data w h ((w + bs - 1) / bs))) := by
  unfold convert
  rw [if_neg (by omega)]

theorem tileAt_length (bs fill : ℕ) (data : List ℕ) (w h nbw bIdx : ℕ) :
    (tileAt bs fill data w h nbw bIdx).length = bs * bs := by
  simp [tileAt]

end BlockSplitter

namespace JPEGCompressor

theorem processBlock_length (bs : ℕ) (D : ℕ → ℕ → ℚ) (table : List (List ℕ))
    (blk : List ℕ) : (processBlock bs D table blk).length = bs * bs := by
  simp [processBlock, ZigZag.encode, ZigZag.genIndices_length]

theorem packHeader_eq (w h bs q dsw dsh : ℕ) (hw : w < 65536) (hh : h < 65536)
    (hbs : bs < 256) (hq : q < 256) (hdsw : dsw < 65536) (hdsh : dsh < 65536) :
    packHeader w h bs q dsw dsh = .ok (headerList w h bs q dsw dsh) := by
  unfold packHeader packU16 packU8
  simp only [hw, hh, hbs, hq, hdsw, hdsh, if_true]
  rfl

theorem parseHeader_headerList (w h bs q dsw dsh : ℕ) (payload : List ℕ) :
    parseHeader (headerList w h bs q dsw dsh ++ payload) =
      .ok (w, h, bs, q, dsw, dsh, payload) := by
  have hdm : ∀ v : ℕ, v / 256 * 256 + v % 256 = v := fun v => by omega
  have h10 : (headerList w h bs q dsw dsh).length = 10 := rfl
  have htake : (headerList w h bs q dsw dsh ++ payload).take 10 =
      headerList w h bs q dsw dsh := by
    rw [← h10]
    exact List.take_left _ _
  have hdrop : (headerList w h bs q dsw dsh ++ payload).drop 10 = payload := by
    rw [← h10]
    exact List.drop_left _ _
  unfold parseHeader readU16
  rw [htake, hdrop, if_neg (by simp [headerList])]
  simp only [headerList, List.getD, List.length_cons, List.length_nil]
  norm_num [List.drop, hdm]

theorem compress_structure (D : ℕ → ℕ → ℚ) (rleC huffC : List ℕ → List ℕ)
    (cfg : Config) (w h : ℕ) (rgb : List ℕ)
    (hq : cfg.quality ≤ 100) (hbs : cfg.block_size = 8)
    (hsy : 1 ≤ cfg.sub_y) (hsx : 1 ≤ cfg.sub_x)
    (hw1 : 1 ≤ w) (hw2 : w < 65536) (hh1 : 1 ≤ h) (hh2 : h < 65536)
    (hrgb : rgb.length = 3 * (w * h)) :
    ∃ (all_blocks : List (List ℤ)) (dc_diff : List ℤ),
      compress D rleC huffC cfg w h rgb =
        .ok (headerList w h 8 cfg.quality ((w + cfg.sub_x - 1) / cfg.sub_x)
              ((h + cfg.sub_y - 1) / cfg.sub_y) ++
            huffC (int16ListBytes dc_diff ++
              rleC (all_blocks.flatMap fun blk => int16ListBytes (blk.drop 1)))) ∧
      all_blocks.length =
        ((h + 8 - 1) / 8) * ((w + 8 - 1) / 8) +
          2 * ((((h + cfg.sub_y - 1) / cfg.sub_y + 8 - 1) / 8) *
            (((w + cfg.sub_x - 1) / cfg.sub_x + 8 - 1) / 8)) ∧
      (∀ b ∈ all_blocks, b.length = 64) ∧
      dc_diff.length = all_blocks.length ∧ 1 ≤ all_blocks.length := by
  have h3 : rgb.length % 3 = 0 := by omega
  have hconv : RGBToYCbCr.convert rgb =
      .ok (RGBToYCbCr.mapTriples RGBToYCbCr.yccPixel rgb) := by
    unfold RGBToYCbCr.convert
    rw [if_neg (by omega)]
  have hl1 : (planeBytes (yPlane (RGBToYCbCr.mapTriples RGBToYCbCr.yccPixel rgb) w) h w).length
      = w * h := by rw [planeBytes_length]; ring
  have hl2 : (planeBytes (chromaDsPlane cfg (RGBToYCbCr.mapTriples RGBToYCbCr.yccPixel rgb) w h 1)
      ((h + cfg.sub_y - 1) / cfg.sub_y) ((w + cfg.sub_x - 1) / cfg.sub_x)).length
      = ((w + cfg.sub_x - 1) / cfg.sub_x) * ((h + cfg.sub_y - 1) / cfg.sub_y) := by
    rw [planeBytes_length]; ring
  have hl3 : (planeBytes (chromaDsPlane cfg (RGBToYCbCr.mapTriples RGBToYCbCr.yccPixel rgb) w h 2)
      ((h + cfg.sub_y - 1) / cfg.sub_y) ((w + cfg.sub_x - 1) / cfg.sub_x)).length
      = ((w + cfg.sub_x - 1) / cfg.sub_x) * ((h + cfg.sub_y - 1) / cfg.sub_y) := by
    rw [planeBytes_length]; ring
  simp only [compress, hbs, hconv, except_bind_ok]
  rw [BlockSplitter.convert_ok _ _ _ _ _ hl1, BlockSplitter.convert_ok _ _ _ _ _ hl2,
    BlockSplitter.convert_ok _ _ _ _ _ hl3]
  simp only [except_bind_ok]
  rw [if_neg (by simp)]
  rw [packHeader_eq w h 8 cfg.quality ((w + cfg.sub_x - 1) / cfg.sub_x)
    ((h + cfg.sub_y - 1) / cfg.sub_y) hw2 hh2 (by norm_num) (by omega)
    (by have := ceil_div_le_self w cfg.sub_x hsx; omega)
    (by have := ceil_div_le_self h cfg.sub_y hsy; omega)]
  rw [DCDifferentialCodec.encode_eq_ok]
  · simp only [except_bind_ok]
    refine ⟨_, _, rfl, ?_, ?_, ?_, ?_⟩
    · simp only [List.length_append, List.length_map, List.length_range]
      omega
    · intro b hb
      simp only [List.mem_append, List.mem_map] at hb
      rcases hb with (⟨a, _, rfl⟩ | ⟨a, _, rfl⟩) | ⟨a, _, rfl⟩ <;>
        simp [processBlock_length]
    · simp only [List.length_cons, List.length_map, List.length_append,
        DCDifferentialCodec.encodeDiffs_length, List.length_tail, List.length_range]
      have hy := ceil_div_pos h 8 (by norm_num) hh1
      have hx := ceil_div_pos w 8 (by norm_num) hw1
      have hyx := Nat.mul_pos hy hx
      omega
    · simp only [List.length_append, List.length_map, List.length_range]
      have hy := ceil_div_pos h 8 (by norm_num) hh1
      have hx := ceil_div_pos w 8 (by norm_num) hw1
      have hyx := Nat.mul_pos hy hx
      omega
  · apply List.ne_nil_of_length_pos
    simp only [List.length_map, List.length_append, List.length_range]
    have hy := ceil_div_pos h 8 (by norm_num) hh1
    have hx := ceil_div_pos w 8 (by norm_num) hw1
    have hyx := Nat.mul_pos hy hx
    omega

theorem restoreTile_eq (D : ℕ → ℕ → ℚ) (table : List (List ℕ)) (blk : List ℤ)
    (hlen : blk.length = 8 * 8) :
    restoreTile 8 D table blk = .ok (restoreValue D table blk) := by
  unfold restoreTile ZigZag.decode
  rw [if_neg (by omega), except_bind_ok, if_neg (by simp)]
  rfl

theorem mapM_restoreTile_eq (D : ℕ → ℕ → ℚ) (table : List (List ℕ)) :
    ∀ l : List (List ℤ), (∀ b ∈ l, b.length = 8 * 8) →
      l.mapM (restoreTile 8 D table) = .ok (l.map (restoreValue D table)) := by
  intro l
  induction l with
  | nil => intro _; rfl
  | cons b rest ih =>
      intro hall
      rw [List.mapM_cons, restoreTile_eq D table b (hall b (by simp)),
        ih fun x hx => hall x (by simp [hx])]
      rfl

theorem buildBlock_eq (bs : ℕ) (hbs : 1 ≤ bs) (dcv : List ℤ) (allb : List (List ℤ))
    (i : ℕ) (hi : i < allb.length) (hdcv : allb.length ≤ dcv.length)
    (hlen : ∀ b ∈ allb, b.length = bs * bs) :
    buildBlock bs dcv (allb.flatMap fun blk => int16ListBytes (blk.drop 1)) i =
      .ok (toInt16 (dcv.getD i 0) :: ((allb.getD i []).drop 1).map toInt16) := by
  have huni : ∀ a ∈ allb, ((fun blk => int16ListBytes (blk.drop 1)) a).length =
      (bs * bs - 1) * 2 := by
    intro a ha
    rw [int16ListBytes_length, List.length_drop, hlen a ha]
    omega
  have hslice := flatMap_uniform_slice (fun blk => int16ListBytes (blk.drop 1))
    ((bs * bs - 1) * 2) [] allb i huni hi
  have hmem : allb.getD i [] ∈ allb := by
    rw [List.getD_eq_getElem _ _ hi]
    exact List.getElem_mem hi
  have hchunklen : (int16ListBytes ((allb.getD i []).drop 1)).length = (bs * bs - 1) * 2 := by
    rw [int16ListBytes_length, List.length_drop, hlen _ hmem]
    omega
  simp only [] at hslice
  simp only [buildBlock]
  rw [hslice, if_neg (by omega)]
  have hidc : i < dcv.length := by omega
  rw [dif_pos hidc]
  rw [int16sOfBytes_int16ListBytes]
  have hzz : (((allb.getD i []).drop 1).map toInt16).length = bs * bs - 1 := by
    rw [List.length_map, List.length_drop, hlen _ hmem]
  rw [if_pos hzz]
  rw [List.getD_eq_getElem _ _ hidc, List.get_eq_getElem]

theorem buildBlocks_eq (bs : ℕ) (hbs : 1 ≤ bs) (dcv : List ℤ) (allb : List (List ℤ)) :
    ∀ (cnt i : ℕ), i + cnt ≤ allb.length → allb.length ≤ dcv.length →
      (∀ b ∈ allb, b.length = bs * bs) →
      buildBlocks bs dcv (allb.flatMap fun blk => int16ListBytes (blk.drop 1)) i cnt =
        .ok ((List.range cnt).map fun k =>
          toInt16 (dcv.getD (i + k) 0) :: ((allb.getD (i + k) []).drop 1).map toInt16) := by
  intro cnt
  induction cnt with
  | zero => intro i _ _ _; rfl
  | succ cnt ih =>
      intro i hcnt hdcv hlen
      rw [buildBlocks, buildBlock_eq bs hbs dcv allb i (by omega) hdcv hlen, except_bind_ok,
        ih (i + 1) (by omega) hdcv hlen, except_bind_ok, List.range_succ_eq_map,
        List.map_cons, List.map_map]
      refine congrArg Except.ok (congrArg₂ List.cons ?_ ?_)
      · rw [Nat.add_zero]
      · apply List.map_congr_left
        intro k _
        simp only [Function.comp_apply]
        rw [show i + 1 + k = i + (k + 1) by omega]

theorem decode_list_eq_ok (l : List ℤ) (hl : l ≠ []) :
    DCDifferentialCodec.decode l =
      .ok (l.headI :: DCDifferentialCodec.decodeSums l.headI l.tail) := by
  match l with
  | [] => exact absurd rfl hl
  | x :: xs => rfl

end JPEGCompressor

namespace BlockSplitter

theorem inverse_eq (bs fill w h : ℕ) (blocks : List (List ℕ))
    (hcount : blocks.length = ((w + bs - 1) / bs) * ((h + bs - 1) / bs))
    (hblen : ∀ b ∈ blocks, b.length = bs * bs) :
    inverse bs fill blocks w h =
      .ok ((List.range (h * w)).map fun k =>
        writeBlocks bs ((w + bs - 1) / bs) blocks 0 (fun _ _ => fill) (k / w) (k % w)) := by
  unfold inverse
  rw [if_neg (by omega)]
  have hany : (blocks.any fun blk => blk.length != bs * bs) = false := by
    rw [List.any_eq_false]
    intro blk hblk
    simpa using hblen blk hblk
  simp only [hany, Bool.false_eq_true, if_false]

end BlockSplitter

namespace JPEGCompressor

theorem mergeTiles_eq (bs fill w h : ℕ) (tiles : List (ℕ → ℕ → ℕ))
    (hcount : tiles.length = ((w + bs - 1) / bs) * ((h + bs - 1) / bs)) :
    mergeTiles bs fill tiles w h =
      .ok ((List.range (h * w)).map fun k =>
        BlockSplitter.writeBlocks bs ((w + bs - 1) / bs)
          (tiles.map fun p => planeBytes p bs bs) 0 (fun _ _ => fill) (k / w) (k % w)) := by
  unfold mergeTiles
  apply BlockSplitter.inverse_eq
  · simpa using hcount
  · intro b hb
    obtain ⟨p, _, rfl⟩ := List.mem_map.mp hb
    rw [planeBytes_length]

end JPEGCompressor

theorem rgb_inverse_eq_ok (data : List ℕ) (h3 : data.length % 3 = 0) :
    RGBToYCbCr.inverse data = .ok (RGBToYCbCr.mapTriples RGBToYCbCr.rgbPixel data) := by
  unfold RGBToYCbCr.inverse
  rw [if_neg (by omega)]

/-- C8: every successful compress output begins with the 10-byte big-endian
header — width (16 bits) at offset 0, height (16 bits) at offset 2, block
size (8 bits) at offset 4, quality (8 bits) at offset 5, subsampled chroma
width (16 bits) at offset 6, subsampled chroma height (16 bits) at offset 8 —
followed by the entropy-coded payload, and `decompress`'s parser recovers
exactly these fields from these offsets together with the payload. -/
theorem C8_container_header (D : ℕ → ℕ → ℚ) (rleC huffC : List ℕ → List ℕ)
    (cfg : JPEGCompressor.Config) (w h : ℕ) (rgb : List ℕ)
    (hq : cfg.quality ≤ 100) (hbs : cfg.block_size = 8)
    (hsy : 1 ≤ cfg.sub_y) (hsx : 1 ≤ cfg.sub_x)
    (hw1 : 1 ≤ w) (hw2 : w < 65536) (hh1 : 1 ≤ h) (hh2 : h < 65536)
    (hrgb : rgb.length = 3 * (w * h)) :
    ∃ out payload,
      JPEGCompressor.compress D rleC huffC cfg w h rgb = .ok out ∧
      out = [w / 256, w % 256, h / 256, h % 256, cfg.block_size, cfg.quality,
        ((w + cfg.sub_x - 1) / cfg.sub_x) / 256, ((w + cfg.sub_x - 1) / cfg.sub_x) % 256,
        ((h + cfg.sub_y - 1) / cfg.sub_y) / 256, ((h + cfg.sub_y - 1) / cfg.sub_y) % 256]
        ++ payload ∧
      JPEGCompressor.parseHeader out = .ok (w, h, cfg.block_size, cfg.quality,
        (w + cfg.sub_x - 1) / cfg.sub_x, (h + cfg.sub_y - 1) / cfg.sub_y, payload) := by
  obtain ⟨allb, dcd, hc, -, -, -, -⟩ :=
    JPEGCompressor.compress_structure D rleC huffC cfg w h rgb hq hbs hsy hsx
      hw1 hw2 hh1 hh2 hrgb
  refine ⟨_, huffC (int16ListBytes dcd ++
      rleC (allb.flatMap fun blk => int16ListBytes (blk.drop 1))), hc, ?_, ?_⟩
  · rw [hbs]
    rfl
  · rw [hbs]
    exact JPEGCompressor.parseHeader_headerList w h 8 cfg.quality _ _ _

/-- Witness for C8: a 1×1 black image at quality 50, with identity
collaborators and the zero DCT matrix. -/
theorem C8_container_header_witness :
    ∃ out payload,
      JPEGCompressor.compress (fun _ _ => 0) id id ⟨50, 8, 2, 2, 0⟩ 1 1 [0, 0, 0] = .ok out ∧
      out = [0, 1, 0, 1, 8, 50, 0, 1, 0, 1] ++ payload ∧
      JPEGCompressor.parseHeader out = .ok (1, 1, 8, 50, 1, 1, payload) := by
  have h := C8_container_header (fun _ _ => 0) id id ⟨50, 8, 2, 2, 0⟩ 1 1 [0, 0, 0]
    (by decide) (by decide) (by decide) (by decide) (by decide) (by decide)
    (by decide) (by decide) (by decide)
  simpa using h

/-- C1: for every configuration with quality in `[0,100]` and block size 8,
and every RGB image whose width and height fit the 16-bit header fields,
decompressing the compressed container succeeds and returns an image of
exactly the same width and height as the input, assuming the RLE and Huffman
collaborator stages satisfy their lossless round-trip contract. -/
theorem C1_decode_encode_shape (D : ℕ → ℕ → ℚ) (rleC rleD huffC huffD : List ℕ → List ℕ)
    (resize : (ℕ → ℕ → ℕ) → ℕ → ℕ → ℕ → ℕ → ℕ → ℕ → ℕ)
    (cfg : JPEGCompressor.Config) (w h : ℕ) (rgb : List ℕ)
    (hq : cfg.quality ≤ 100) (hbs : cfg.block_size = 8)
    (hsy : 1 ≤ cfg.sub_y) (hsx : 1 ≤ cfg.sub_x) (hfill : cfg.fill_value ≤ 255)
    (hw1 : 1 ≤ w) (hw2 : w < 65536) (hh1 : 1 ≤ h) (hh2 : h < 65536)
    (hrgb : rgb.length = 3 * (w * h))
    (hrle : ∀ x, rleD (rleC x) = x) (hhuff : ∀ x, huffD (huffC x) = x) :
    ∃ out img, JPEGCompressor.compress D rleC huffC cfg w h rgb = .ok out ∧
      JPEGCompressor.decompress D rleD huffD resize cfg out = .ok (w, h, img) ∧
      img.length = 3 * (w * h) := by
  obtain ⟨allb, dcd, hc, hablen, hblen64, hdcdlen, hab1⟩ :=
    JPEGCompressor.compress_structure D rleC huffC cfg w h rgb hq hbs hsy hsx
      hw1 hw2 hh1 hh2 hrgb
  have htot : ((w + 8 - 1) / 8) * ((h + 8 - 1) / 8) +
      2 * ((((w + cfg.sub_x - 1) / cfg.sub_x + 8 - 1) / 8) *
        (((h + cfg.sub_y - 1) / cfg.sub_y + 8 - 1) / 8)) = allb.length := by
    rw [hablen]
    ring
  have hdec : ∃ img,
      JPEGCompressor.decompress D rleD huffD resize cfg
        (JPEGCompressor.headerList w h 8 cfg.quality ((w + cfg.sub_x - 1) / cfg.sub_x)
            ((h + cfg.sub_y - 1) / cfg.sub_y) ++
          huffC (int16ListBytes dcd ++
            rleC (allb.flatMap fun blk => int16ListBytes (blk.drop 1)))) =
        .ok (w, h, img) ∧ img.length = 3 * (w * h) := by
    simp only [JPEGCompressor.decompress, JPEGCompressor.parseHeader_headerList,
      except_bind_ok]
    rw [if_neg (by norm_num), if_neg (by omega), if_neg (by omega), hhuff]
    have hdl : (int16ListBytes dcd).length =
        (((w + 8 - 1) / 8) * ((h + 8 - 1) / 8) +
          2 * ((((w + cfg.sub_x - 1) / cfg.sub_x + 8 - 1) / 8) *
            (((h + cfg.sub_y - 1) / cfg.sub_y + 8 - 1) / 8))) * 2 := by
      rw [int16ListBytes_length, hdcdlen]
      omega
    rw [List.take_left' hdl, List.drop_left' hdl]
    rw [if_neg (by rw [int16ListBytes_length]; omega)]
    rw [int16sOfBytes_int16ListBytes]
    rw [JPEGCompressor.decode_list_eq_ok _ (by
      apply List.ne_nil_of_length_pos
      rw [List.length_map]
      omega)]
    simp only [except_bind_ok]
    rw [hrle]
    rw [JPEGCompressor.buildBlocks_eq 8 (by norm_num)]
    · simp only [except_bind_ok, Nat.zero_add]
      rw [JPEGCompressor.mapM_restoreTile_eq _ _ _ (by
        intro b hb
        obtain ⟨k, hk, rfl⟩ := List.mem_map.mp (List.mem_of_mem_take hb)
        have hk' : k < allb.length := by
          have := List.mem_range.mp hk
          omega
        have hmem : allb.getD k [] ∈ allb := by
          rw [List.getD_eq_getElem _ _ hk']
          exact List.getElem_mem hk'
        simp only [List.length_cons, List.length_map, List.length_drop]
        rw [hblen64 _ hmem])]
      rw [JPEGCompressor.mapM_restoreTile_eq _ _ _ (by
        intro b hb
        obtain ⟨k, hk, rfl⟩ := List.mem_map.mp
          (List.mem_of_mem_drop (List.mem_of_mem_take hb))
        have hk' : k < allb.length := by
          have := List.mem_range.mp hk
          omega
        have hmem : allb.getD k [] ∈ allb := by
          rw [List.getD_eq_getElem _ _ hk']
          exact List.getElem_mem hk'
        simp only [List.length_cons, List.length_map, List.length_drop]
        rw [hblen64 _ hmem])]
      rw [JPEGCompressor.mapM_restoreTile_eq _ _ _ (by
        intro b hb
        obtain ⟨k, hk, rfl⟩ := List.mem_map.mp
          (List.mem_of_mem_drop (List.mem_of_mem_take hb))
        have hk' : k < allb.length := by
          have := List.mem_range.mp hk
          omega
        have hmem : allb.getD k [] ∈ allb := by
          rw [List.getD_eq_getElem _ _ hk']
          exact List.getElem_mem hk'
        simp only [List.length_cons, List.length_map, List.length_drop]
        rw [hblen64 _ hmem])]
      simp only [except_bind_ok]
      rw [JPEGCompressor.mergeTiles_eq _ _ _ _ _ (by
        simp only [List.length_map, List.length_take, List.length_range]
        omega)]
      rw [JPEGCompressor.mergeTiles_eq _ _ _ _ _ (by
        simp only [List.length_map, List.length_take, List.length_drop, List.length_range]
        omega)]
      rw [JPEGCompressor.mergeTiles_eq _ _ _ _ _ (by
        simp only [List.length_map, List.length_take, List.length_drop, List.length_range]
        omega)]
      simp only [except_bind_ok]
      rw [rgb_inverse_eq_ok _ (by rw [length_flatMap_triple]; omega)]
      simp only [except_bind_ok]
      rw [if_neg (by
        rw [RGBToYCbCr.mapTriples_length _ _ (by rw [length_flatMap_triple]; omega),
          length_flatMap_triple, List.length_range]
        have hwh : h * w = w * h := Nat.mul_comm h w
        omega)]
      refine ⟨_, rfl, ?_⟩
      rw [RGBToYCbCr.mapTriples_length _ _ (by rw [length_flatMap_triple]; omega),
        length_flatMap_triple, List.length_range]
      ring
    · omega
    · simp only [List.length_cons, DCDifferentialCodec.decodeSums_length,
        List.length_tail, List.length_map]
      omega
    · intro b hb
      simpa using hblen64 b hb
  obtain ⟨img, h1, h2⟩ := hdec
  exact ⟨_, img, hc, h1, h2⟩

/-- Witness for C1: a 1×1 image at quality 50, identity RLE and Huffman
collaborators, the zero DCT basis matrix and the zero resize function. -/
theorem C1_decode_encode_shape_witness :
    ∃ out img,
      JPEGCompressor.compress (fun _ _ => 0) id id ⟨50, 8, 2, 2, 0⟩ 1 1 [10, 20, 30] =
        .ok out ∧
      JPEGCompressor.decompress (fun _ _ => 0) id id (fun _ _ _ _ _ _ _ => 0)
        ⟨50, 8, 2, 2, 0⟩ out = .ok (1, 1, img) ∧
      img.length = 3 * (1 * 1) :=
  C1_decode_encode_shape (fun _ _ => 0) id id id id (fun _ _ _ _ _ _ _ => 0)
    ⟨50, 8, 2, 2, 0⟩ 1 1 [10, 20, 30]
    (by decide) (by decide) (by decide) (by decide) (by decide) (by decide)
    (by decide) (by decide) (by decide) (by decide) (fun _ => rfl) (fun _ => rfl)

namespace BlockSplitter

theorem writeBlocks_at_point (bs nbw : ℕ) (blocks : List (List ℕ)) (base : ℕ → ℕ → ℕ)
    (y x : ℕ) (hbs : 1 ≤ bs) (hcol : x / bs < nbw)
    (hidx : (y / bs) * nbw + x / bs < blocks.length) :
    writeBlocks bs nbw blocks 0 base y x =
      (blocks.getD ((y / bs) * nbw + x / bs) []).getD
        ((y - (y / bs) * bs) * bs + (x - (x / bs) * bs)) 0 := by
  have hdm := divmod_pair nbw (y / bs) (x / bs) hcol
  have hcov : inTile bs (((y / bs) * nbw + x / bs) / nbw) (((y / bs) * nbw + x / bs) % nbw)
      y x := by
    rw [hdm.1, hdm.2, inTile]
    have h1 := (div_eq_iff_pair bs (y / bs) y hbs).mp rfl
    have h2 := (div_eq_iff_pair bs (x / bs) x hbs).mp rfl
    exact ⟨h1.1, h1.2, h2.1, h2.2⟩
  have huniq : ∀ k, k < blocks.length → k ≠ (y / bs) * nbw + x / bs →
      ¬ inTile bs ((0 + k) / nbw) ((0 + k) % nbw) y x := by
    intro k _ hne hcontra
    rw [Nat.zero_add, inTile] at hcontra
    have hjr : y / bs = k / nbw :=
      (div_eq_iff_pair bs (k / nbw) y hbs).mpr ⟨hcontra.1, hcontra.2.1⟩
    have hjc : x / bs = k % nbw :=
      (div_eq_iff_pair bs (k % nbw) x hbs).mpr ⟨hcontra.2.2.1, hcontra.2.2.2⟩
    have hkdm : (k / nbw) * nbw + k % nbw = k := by
      conv_rhs => rw [← Nat.div_add_mod k nbw]
      rw [Nat.mul_comm]
    exact hne (by rw [hjr, hjc, hkdm])
  have hres := writeBlocks_covered bs nbw y x blocks 0 base ((y / bs) * nbw + x / bs)
    hidx (by rw [Nat.zero_add]; exact hcov) (by simpa using huniq)
  simp only [Nat.zero_add, hdm.1, hdm.2] at hres
  exact hres

/-- The fill value passed to `BlockSplitter.inverse` does not influence the
result: it only pre-fills grid cells, and every cell surviving the crop is
overwritten by a tile. -/
theorem inverse_fill_eq (bs : ℕ) (hbs : 1 ≤ bs) (f1 f2 : ℕ)
    (blocks : List (List ℕ)) (w h : ℕ) :
    inverse bs f1 blocks w h = inverse bs f2 blocks w h := by
  simp only [inverse]
  split_ifs with h1 h2
  · rfl
  · rfl
  · refine congrArg Except.ok (List.map_congr_left ?_)
    intro k hk
    have hk' : k < h * w := List.mem_range.mp hk
    have hw0 : 1 ≤ w := by
      rcases Nat.eq_zero_or_pos w with hw | hw
      · subst hw
        omega
      · exact hw
    have hyh : k / w < h := by
      rw [Nat.div_lt_iff_lt_mul (by omega)]
      omega
    have hxw : k % w < w := Nat.mod_lt k (by omega)
    have hwle : w ≤ ((w + bs - 1) / bs) * bs := le_ceil_mul bs w hbs
    have hhle : h ≤ ((h + bs - 1) / bs) * bs := le_ceil_mul bs h hbs
    have hcol : (k % w) / bs < (w + bs - 1) / bs := by
      rw [Nat.div_lt_iff_lt_mul hbs]
      omega
    have hrow : (k / w) / bs < (h + bs - 1) / bs := by
      rw [Nat.div_lt_iff_lt_mul hbs]
      omega
    have hidx : ((k / w) / bs) * ((w + bs - 1) / bs) + (k % w) / bs < blocks.length := by
      rw [not_not] at h1
      have hlt := mul_add_lt_mul ((k / w) / bs) ((h + bs - 1) / bs)
        ((k % w) / bs) ((w + bs - 1) / bs) hrow hcol
      have hcomm : ((w + bs - 1) / bs) * ((h + bs - 1) / bs) =
          ((h + bs - 1) / bs) * ((w + bs - 1) / bs) := Nat.mul_comm _ _
      omega
    rw [writeBlocks_at_point bs _ blocks _ _ _ hbs hcol hidx,
      writeBlocks_at_point bs _ blocks _ _ _ hbs hcol hidx]

end BlockSplitter

namespace JPEGCompressor

theorem mergeTiles_fill_eq (bs : ℕ) (hbs : 1 ≤ bs) (f1 f2 : ℕ) :
    ∀ (tiles : List (ℕ → ℕ → ℕ)) (w h : ℕ),
      mergeTiles bs f1 tiles w h = mergeTiles bs f2 tiles w h := by
  intro tiles w h
  unfold mergeTiles
  exact BlockSplitter.inverse_fill_eq bs hbs f1 f2 _ w h

end JPEGCompressor

/-- C10: the output of `decompress` depends only on the container bytes: any
two validly constructed codec instances — whatever their quality, subsample
factors, or fill value — return identical results for the same input. -/
theorem C10_decompress_config_independent (D : ℕ → ℕ → ℚ)
    (rleD huffD : List ℕ → List ℕ)
    (resize : (ℕ → ℕ → ℕ) → ℕ → ℕ → ℕ → ℕ → ℕ → ℕ → ℕ)
    (cfg1 cfg2 : JPEGCompressor.Config) (data : List ℕ)
    (hf1 : cfg1.fill_value ≤ 255) (hf2 : cfg2.fill_value ≤ 255)
    (hsy1 : 1 ≤ cfg1.sub_y) (hsx1 : 1 ≤ cfg1.sub_x)
    (hsy2 : 1 ≤ cfg2.sub_y) (hsx2 : 1 ≤ cfg2.sub_x) :
    JPEGCompressor.decompress D rleD huffD resize cfg1 data =
      JPEGCompressor.decompress D rleD huffD resize cfg2 data := by
  simp only [JPEGCompressor.decompress]
  cases hp : JPEGCompressor.parseHeader data with
  | error e => rfl
  | ok v =>
      obtain ⟨w, h, bs, q, dsw, dsh, payload⟩ := v
      simp only [except_bind_ok]
      by_cases hb : bs = 0
      · rw [if_pos hb, if_pos hb]
      · rw [if_neg hb, if_neg hb, if_neg (by omega : ¬¬(cfg1.fill_value ≤ 255)),
          if_neg (by omega : ¬¬(cfg2.fill_value ≤ 255)),
          if_neg (by omega : ¬(cfg1.sub_y = 0 ∨ cfg1.sub_x = 0)),
          if_neg (by omega : ¬(cfg2.sub_y = 0 ∨ cfg2.sub_x = 0))]
        simp only [JPEGCompressor.mergeTiles_fill_eq bs (by omega)
          cfg1.fill_value cfg2.fill_value]

/-- Witness for C10: two different valid configurations decode the empty
container identically. -/
theorem C10_decompress_config_independent_witness :
    JPEGCompressor.decompress (fun _ _ => 0) id id (fun _ _ _ _ _ _ _ => 0)
      ⟨75, 8, 2, 2, 0⟩ [] =
    JPEGCompressor.decompress (fun _ _ => 0) id id (fun _ _ _ _ _ _ _ => 0)
      ⟨10, 4, 1, 3, 255⟩ [] :=
  C10_decompress_config_independent (fun _ _ => 0) id id (fun _ _ _ _ _ _ _ => 0)
    ⟨75, 8, 2, 2, 0⟩ ⟨10, 4, 1, 3, 255⟩ []
    (by decide) (by decide) (by decide) (by decide) (by decide) (by decide)
